import Mathlib

/-!
# Verification of the Ankify slide-to-flashcard pipeline

A shallow embedding of the core of `ankify.py` (class `SlideAnalyzer`):
text transforms (`convert_to_single_card_format`, `add_bold_formatting`),
batch response reconciliation (`analyze_slides_batch`), the progress
checkpoint logic of `process_lecture` / `_cleanup_temp_files`, the retry
loops, and the multi-stage refinement orchestrator
(`critique_and_refine_cards` / `_process_refined_cards`).

Strings are modelled as `List Char`; Python dicts holding slide results and
cards are modelled as structures with their fields.
-/

namespace Ankify

/-! ## Basic character and string utilities mirroring Python primitives -/

/-- Python `str.count(cc)` for a two-character pattern `c ++ c`:
counts non-overlapping occurrences scanning from the left. -/
def countPairs (c : Char) : List Char → Nat
  | a :: b :: rest =>
      if a = c ∧ b = c then countPairs c rest + 1 else countPairs c (b :: rest)
  | _ => 0

/-- Python regex `\w` (ASCII): letters, digits or underscore. -/
def isWordChar (c : Char) : Bool :=
  c.isAlphanum || c = '_'

/-- Python regex `\s`: space, tab, newline, carriage return, form feed,
vertical tab. -/
def isSpaceChar (c : Char) : Bool :=
  c = ' ' || c = '\t' || c = '\n' || c = '\x0d' || c = '\x0c' || c = '\x0b'

/-- Case-insensitive character equality (Python `re.IGNORECASE`). -/
def charCI (a b : Char) : Bool :=
  a.toLower = b.toLower

/-- `w` is a case-insensitive prefix of `s`. -/
def ciPrefix : List Char → List Char → Bool
  | [], _ => true
  | _ :: _, [] => false
  | w :: ws, s :: ss => charCI s w && ciPrefix ws ss

/-- Substring containment (`pat in s` for Python strings). -/
def containsSub (pat : List Char) : List Char → Bool
  | [] => pat.isPrefixOf []
  | c :: rest => pat.isPrefixOf (c :: rest) || containsSub pat rest

/-! ## `convert_to_single_card_format`

`re.sub(r'\{\{c\d+::', '{{c1::', text)`: a leftmost non-overlapping scan
replacing every cloze-opening marker `{{c<digits>::` by `{{c1::`. -/

/-- Length of a match of `\{\{c\d+::` at the head of `s`, if any:
`{{c`, then a maximal nonempty digit run, then `::`. -/
def clozeMatchLen (s : List Char) : Option Nat :=
  match s with
  | c₁ :: c₂ :: c₃ :: t =>
      if c₁ = '{' ∧ c₂ = '{' ∧ c₃ = 'c' then
        let ds := t.takeWhile Char.isDigit
        if ds ≠ [] ∧ [':', ':'].isPrefixOf (t.drop ds.length) then
          some (3 + ds.length + 2)
        else none
      else none
  | _ => none

/-- The scan of `re.sub(r'\{\{c\d+::', '{{c1::', ·)`.  The scan consumes
at least one character per step, so a fuel of the input's length suffices;
the fuel makes the recursion structural (hence kernel-executable). -/
def convertAux : Nat → List Char → List Char
  | _, [] => []
  | 0, s => s
  | fuel + 1, c :: rest =>
      match clozeMatchLen (c :: rest) with
      | some L => '{' :: '{' :: 'c' :: '1' :: ':' :: ':' :: convertAux fuel (rest.drop (L - 1))
      | none => c :: convertAux fuel rest

/-- `convert_to_single_card_format` (lines 854-858): the identity unless
`single_card_mode` is set. -/
def convert_to_single_card_format (single_card_mode : Bool) (text : List Char) : List Char :=
  if single_card_mode then convertAux text.length text else text

/-! ## `add_bold_formatting`

Three sequential `re.sub(pattern, replace_if_not_in_cloze, text, re.IGNORECASE)`
passes.  The replacement function wraps the matched term in `<b>...</b>`
unless the prefix of the text before the match has more `{{` than `}}`
occurrences, in which case the term is left unchanged. -/

/-- Word alternatives of the first key pattern. -/
def keyWords1 : List (List Char) :=
  ["diagnosis".data, "treatment".data, "syndrome".data, "disease".data,
   "disorder".data, "symptom".data, "sign".data, "pathophysiology".data,
   "mechanism".data, "receptor".data, "enzyme".data, "hormone".data,
   "drug".data, "medication".data, "dose".data, "contraindication".data,
   "indication".data, "complication".data, "prognosis".data, "etiology".data,
   "differential".data, "investigation".data, "management".data]

/-- Word alternatives of the second key pattern. -/
def keyWords2 : List (List Char) :=
  ["acute".data, "chronic".data, "primary".data, "secondary".data,
   "benign".data, "malignant".data, "systemic".data, "focal".data,
   "diffuse".data, "bilateral".data, "unilateral".data]

/-- Unit alternatives of the third key pattern, in source order. -/
def unitWords : List (List Char) :=
  ["mg".data, "mcg".data, "g".data, "kg".data, "mL".data, "L".data,
   "mmHg".data, "bpm".data, "/min".data, "/hr".data, "/day".data,
   ['%'] , "mmol".data, "mg/dL".data]

/-- Regex `\b` between two (optional) characters: exactly one side is a
word character. -/
def isBoundary (left right : Option Char) : Bool :=
  (left.elim false isWordChar) != (right.elim false isWordChar)

/-- A matcher: given the suffix of the text at the scan position and the
character just before that position, the length of the (unique leftmost)
regex match starting there, if any. -/
def Matcher := List Char → Option Char → Option Nat

/-- Matcher for `\b(w1|w2|...)\b` with `IGNORECASE`: alternatives tried in
order; a word matches when it is a case-insensitive prefix and both
boundaries hold. -/
def wordsMatchAt (ws : List (List Char)) : Matcher := fun s prev =>
  if isBoundary prev s.head? then
    (ws.find? fun w =>
        ciPrefix w s && isBoundary ((s.take w.length).getLast?) ((s.drop w.length).head?)).map
      List.length
  else none

/-- Matcher for `\b(\d+\s*(?:mg|mcg|...|mg/dL))\b` with `IGNORECASE`:
a nonempty maximal digit run, maximal whitespace, then the first unit
alternative that matches and is followed by a word boundary. -/
def unitsMatchAt : Matcher := fun s prev =>
  if isBoundary prev s.head? then
    let ds := s.takeWhile Char.isDigit
    if ds = [] then none
    else
      let afterDigits := s.drop ds.length
      let sp := afterDigits.takeWhile isSpaceChar
      let afterSpace := afterDigits.drop sp.length
      (unitWords.find? fun u =>
          ciPrefix u afterSpace &&
            isBoundary ((afterSpace.take u.length).getLast?)
              ((afterSpace.drop u.length).head?)).map
        (fun u => ds.length + sp.length + u.length)
  else none

/-- The scan of one `re.sub(pattern, replace_if_not_in_cloze, text)` pass:
leftmost non-overlapping matches; a match at position `i` is kept verbatim
when `text[:i].count('{{') > text[:i].count('}}')` and wrapped in
`<b>...</b>` otherwise. -/
def boldAux (m : Matcher) (orig : List Char) : Nat → List Char → Nat → List Char
  | _, [], _ => []
  | 0, s, _ => s
  | fuel + 1, c :: rest, i =>
      match m (c :: rest) (if i = 0 then none else orig.get? (i - 1)) with
      | some L =>
          let seg := (c :: rest).take L
          (if countPairs '}' (orig.take i) < countPairs '{' (orig.take i) then seg
           else '<' :: 'b' :: '>' :: (seg ++ ['<', '/', 'b', '>'])) ++
            boldAux m orig fuel (rest.drop (L - 1)) (i + L)
      | none => c :: boldAux m orig fuel rest (i + 1)

/-- One full `re.sub` pass over `text`. -/
def boldPass (m : Matcher) (text : List Char) : List Char :=
  boldAux m text text.length text 0

/-- `add_bold_formatting` (lines 860-879): the three passes in source
order. -/
def add_bold_formatting (text : List Char) : List Char :=
  boldPass unitsMatchAt (boldPass (wordsMatchAt keyWords2) (boldPass (wordsMatchAt keyWords1) text))

/-! ## Data model

Cards and per-slide results as produced by `analyze_slides_batch` and
consumed by `critique_and_refine_cards`. -/

/-- A card record (`text`, `facts`, `context`, `clinical_relevance`). -/
structure Card where
  text : List Char
  facts : List (List Char)
  context : List Char
  clinical_relevance : List Char
deriving DecidableEq, Repr

/-- One slide's entry of the parsed batch response / result list
(`{"page_num": ..., "cards": [...]}`). -/
structure SlideEntry where
  page_num : Nat
  cards : List Card
deriving DecidableEq, Repr

/-- A flat card entry during refinement, tagged with its slide
(`{"slide": ..., "text": ..., ...}`). -/
structure RCard where
  slide : Nat
  text : List Char
  facts : List (List Char)
  context : List Char
  clinical_relevance : List Char
deriving DecidableEq, Repr

/-! ## Batch response reconciliation (`analyze_slides_batch`, lines 977-1014)

After a JSON array is parsed from the response, the code
1. computes `expected_slide_nums = set(range(1, len(images) + 1))`,
2. appends `{"page_num": n, "cards": []}` for every expected id missing
   from the response,
3. sorts by `page_num`, and
4. rewrites each card's text (single-card flattening when enabled, then
   bold annotation). -/

/-- The per-card text post-processing of the reconciliation loop
(lines 1000-1004). -/
def processCard (single_card_mode : Bool) (c : Card) : Card :=
  { c with text := add_bold_formatting (convert_to_single_card_format single_card_mode c.text) }

/-- Entry-wise ordering by `page_num` used by `all_slides_data.sort`. -/
def entryLE (a b : SlideEntry) : Prop := a.page_num ≤ b.page_num

instance : DecidableRel entryLE := fun a b => Nat.decLe a.page_num b.page_num

instance : IsTotal SlideEntry entryLE := ⟨fun a b => Nat.le_total a.page_num b.page_num⟩

instance : IsTrans SlideEntry entryLE := ⟨fun _ _ _ h h' => Nat.le_trans h h'⟩

/-- The reconciliation of one parsed batch response against
`numImages` requested slides (lines 983-1010): keep every parsed entry,
synthesize `{page_num, cards: []}` for ids of `1..numImages` absent from
the parsed response, sort by `page_num`, then post-process card texts. -/
def reconcileBatch (single_card_mode : Bool) (numImages : Nat)
    (parsed : List SlideEntry) : List SlideEntry :=
  let responseNums := parsed.map SlideEntry.page_num
  let expected := List.range' 1 numImages
  let missing := expected.filter fun n => n ∉ responseNums
  let completed := parsed ++ missing.map fun n => ⟨n, []⟩
  (completed.insertionSort entryLE).map fun e =>
    ⟨e.page_num, e.cards.map (processCard single_card_mode)⟩

/-! ## Merging batch results into per-document progress
(`process_lecture`, lines 1898-1907)

For each entry of the batch result, the entry is appended to
`all_cards_data` only when its card list is nonempty, while its
`page_num` is always added to `completed_slides`. -/

/-- One step of the merge loop. -/
def mergeStep (st : List SlideEntry × Finset Nat) (sd : SlideEntry) :
    List SlideEntry × Finset Nat :=
  (if sd.cards ≠ [] then st.1 ++ [sd] else st.1, insert sd.page_num st.2)

/-- The merge of a whole batch result into the accumulated results and
completed-slide set. -/
def mergeBatch (acc : List SlideEntry) (completed : Finset Nat)
    (batch : List SlideEntry) : List SlideEntry × Finset Nat :=
  batch.foldl mergeStep (acc, completed)

/-- The per-document progress record stored in the checkpoint file
(`progress_data` of `process_lecture`). -/
structure Progress where
  total_slides : Nat
  completed_slides : Finset Nat
  cards_data : List SlideEntry
deriving DecidableEq

/-- The pending-slide computation of a (possibly resumed) run over slides
`1..N` (line 1892): `remaining_images`. -/
def remainingSlides (N : Nat) (completed : Finset Nat) : List Nat :=
  (List.range' 1 N).filter fun n => n ∉ completed

/-- The generation phase of `process_lecture` (lines 1868-1910) against a
deterministic mock service answering each requested slide `n` with cards
`svc n`: load or initialize progress, batch the pending slides, reconcile
and merge.  Returns the progress record that is saved to the checkpoint
(or carried forward when nothing is pending). -/
def generationPhase (ckpt : Option Progress) (N : Nat) (svc : Nat → List Card)
    (single_card_mode : Bool) : Progress :=
  let progress := ckpt.getD ⟨N, ∅, []⟩
  let remaining := remainingSlides N progress.completed_slides
  if remaining = [] then progress
  else
    let parsed := remaining.map fun n => SlideEntry.mk n (svc n)
    let batch := reconcileBatch single_card_mode remaining.length parsed
    let merged := mergeBatch progress.cards_data progress.completed_slides batch
    ⟨N, merged.2, merged.1⟩

/-! ## Retry loops

`analyze_slides_batch` (lines 957-962): before attempt `a > 0` (0-based),
sleep `2 ** a + random.uniform(0, 1)` seconds.

`critique_and_refine_cards` stage loops (lines 1106-1111 etc.): before
attempt `a > 0`, sleep `30 * a` seconds. -/

/-- The attempt loop shared by both call sites, parameterized by the sleep
before (0-based) attempt `a` and the transport outcome of attempt `a`.
Returns the sleeps performed in order and whether some attempt
succeeded. -/
def retryLoop (sleepFor : Nat → ℚ) (ok : Nat → Bool) : Nat → Nat → List ℚ × Bool
  | _, 0 => ([], false)
  | a, fuel + 1 =>
      let sleeps := if 0 < a then [sleepFor a] else []
      if ok a then (sleeps, true)
      else
        let r := retryLoop sleepFor ok (a + 1) fuel
        (sleeps ++ r.1, r.2)

/-- The sleeps and outcome of the batch-generation retry loop
(`for attempt in range(max_retries)` with `wait_time = (2 ** attempt) +
random.uniform(0, 1)`), with `jitter a` the value drawn from
`uniform(0, 1)` before attempt `a`. -/
def batchRetryRun (max_retries : Nat) (jitter : Nat → ℚ) (ok : Nat → Bool) :
    List ℚ × Bool :=
  retryLoop (fun a => 2 ^ a + jitter a) ok 0 max_retries

/-- The sleeps and outcome of a refinement-stage retry loop
(`wait_time = 30 * attempt`). -/
def critiqueRetryRun (max_retries : Nat) (ok : Nat → Bool) : List ℚ × Bool :=
  retryLoop (fun a => 30 * a) ok 0 max_retries

/-! ## `_process_refined_cards` (lines 1695-1732)

Keep only cards whose text contains `{{c`; regroup them by slide in a
dict whose keys appear in first-insertion order; apply single-card
flattening (when enabled) and bold annotation to each kept card. -/

/-- Whether a card text passes the cloze-format validation
(`'{{c' in card.get('text', '')`). -/
def hasClozeSub (text : List Char) : Bool :=
  containsSub ('{' :: '{' :: 'c' :: []) text

/-- The card record built from a surviving refined card (lines 1715-1725). -/
def refinedToCard (single_card_mode : Bool) (c : RCard) : Card :=
  { text := add_bold_formatting (convert_to_single_card_format single_card_mode c.text)
    facts := c.facts
    context := c.context
    clinical_relevance := c.clinical_relevance }

/-- Insert one card under its slide: append to the existing entry for that
slide, or append a fresh entry at the end (Python dict insertion order). -/
def insertRefined (acc : List SlideEntry) (n : Nat) (c : Card) : List SlideEntry :=
  if acc.any fun e => e.page_num = n then
    acc.map fun e => if e.page_num = n then ⟨e.page_num, e.cards ++ [c]⟩ else e
  else acc ++ [⟨n, [c]⟩]

/-- `_process_refined_cards`: validation filter then regrouping. -/
def processRefinedCards (single_card_mode : Bool) (refined : List RCard) :
    List SlideEntry :=
  let valid := refined.filter fun c => hasClozeSub c.text
  valid.foldl (fun acc c => insertRefined acc c.slide (refinedToCard single_card_mode c)) []

/-! ## `critique_and_refine_cards` (lines 1042-1325)

Four sequential stages over the flat card list.  Each stage's service
interaction is summarized by an `Option (List RCard)`: `some l` when some
attempt returned HTTP 200 with a parsable JSON object (`l` the stage's
card list, possibly empty), `none` when every attempt failed.

Stage 1 (`Refine`): on failure, or on an empty `refined_cards` list, the
original card set is returned unchanged and refinement aborts.
Stages 2 (`Hint`, iff `add_hints`), 3 (`Group`, iff not single-card mode)
and 4 (`Audit`): the current card list is replaced only when the stage
succeeds with a nonempty list; otherwise it is left unchanged and the
next stage runs. -/

/-- Fail-soft update of the current card list by one of stages 2-4. -/
def applyStage (cur : List RCard) (outcome : Option (List RCard)) : List RCard :=
  match outcome with
  | some l => if l ≠ [] then l else cur
  | none => cur

/-- Stage 2 (`Hint`): runs only when `add_hints` is set and cards remain;
fail-soft. -/
def hintStage (add_hints : Bool) (cur : List RCard) (s2 : Option (List RCard)) :
    List RCard :=
  if add_hints ∧ cur ≠ [] then applyStage cur s2 else cur

/-- Stage 3 (`Group`): runs only outside single-card mode and when cards
remain; fail-soft. -/
def groupStage (single_card_mode : Bool) (cur : List RCard)
    (s3 : Option (List RCard)) : List RCard :=
  if ¬single_card_mode ∧ cur ≠ [] then applyStage cur s3 else cur

/-- Stage 4 (`Audit`, the final ambiguity check): runs when cards remain;
fail-soft. -/
def auditStage (cur : List RCard) (s4 : Option (List RCard)) : List RCard :=
  if cur ≠ [] then applyStage cur s4 else cur

/-- The orchestrator.  `s1`-`s4` are the per-stage service outcomes. -/
def critiqueAndRefine (single_card_mode add_hints : Bool)
    (s1 s2 s3 s4 : Option (List RCard)) (all_cards_data : List SlideEntry) :
    List SlideEntry :=
  match s1 with
  | none => all_cards_data
  | some refined =>
      if refined = [] then all_cards_data
      else
        let cur2 := hintStage add_hints refined s2
        let cur3 := groupStage single_card_mode cur2 s3
        let cur4 := auditStage cur3 s4
        processRefinedCards single_card_mode cur4

/-! ## Checkpoint lifecycle (`process_lecture` lines 1852-1936,
`_cleanup_temp_files` lines 1939-1949)

The observable filesystem state is the per-document checkpoint file.
`save_progress` is called once after a successful batch; `_cleanup_temp_files`
deletes the file and is called only right after `create_anki_package`
returned; a packaging exception propagates before any cleanup. -/

/-- Outcome of one `process_lecture` run: the final checkpoint state, the
card set successfully handed to packaging (when packaging succeeded), and
whether the call returned a package path (`some true`), returned `None`
(`some false`), or let a packaging exception escape (`none`). -/
structure RunOutcome where
  checkpoint : Option Progress
  packaged : Option (List SlideEntry)
  result : Option Bool
deriving DecidableEq

/-- `process_lecture` with the generation phase abstracted by a mock
service, refinement stage outcomes `s1`-`s4`, and a packaging collaborator
that either succeeds or raises (`packOk`).  `resume` selects whether an
existing checkpoint `fs` is loaded; `batchOk` is whether the batch request
loop ultimately succeeded (a failed loop returns `[]`, and the run then
returns `None` with the checkpoint file untouched). -/
def processLecture (resume : Bool) (fs : Option Progress) (N : Nat)
    (svc : Nat → List Card) (single_card_mode add_hints : Bool)
    (budget_mode : Bool) (batchOk : Bool) (s1 s2 s3 s4 : Option (List RCard))
    (packOk : Bool) : RunOutcome :=
  let progress0 := (if resume then fs else none).getD ⟨N, ∅, []⟩
  let remaining := remainingSlides N progress0.completed_slides
  if remaining ≠ [] ∧ ¬batchOk then
    -- batch processing failed: return None, checkpoint file untouched
    ⟨fs, none, some false⟩
  else
    let progress :=
      if remaining ≠ [] then
        generationPhase (if resume then fs else none) N svc single_card_mode
      else progress0
    let fs1 := if remaining ≠ [] then some progress else fs
    let all_cards_data := progress.cards_data
    if all_cards_data = [] then ⟨fs1, none, some false⟩
    else
      let deck :=
        if budget_mode then all_cards_data
        else critiqueAndRefine single_card_mode add_hints s1 s2 s3 s4 all_cards_data
      if packOk then ⟨none, some deck, some true⟩ else ⟨fs1, none, none⟩

/-! ## Claim C4: fail-soft semantics of the refinement stages -/

/-- C4: if the `Refine` stage fails (or yields no cards), the whole
refinement run aborts and the original unrefined card set is returned; a
later failing stage leaves the current card set unchanged and the
orchestrator proceeds; in particular a `Hint` stage whose transport always
fails produces exactly the output of a run with hints disabled, and when
the remaining stages also fail the final output is the processed `Refine`
output itself. -/
theorem C4_fail_soft_stages (single_card_mode add_hints : Bool)
    (s2 s2' s3 s4 : Option (List RCard)) (refined : List RCard)
    (cur : List RCard) (input : List SlideEntry) :
    critiqueAndRefine single_card_mode add_hints none s2 s3 s4 input = input ∧
    critiqueAndRefine single_card_mode add_hints (some []) s2 s3 s4 input = input ∧
    applyStage cur none = cur ∧
    critiqueAndRefine single_card_mode true (some refined) none s3 s4 input =
      critiqueAndRefine single_card_mode false (some refined) s2' s3 s4 input ∧
    (refined ≠ [] →
      critiqueAndRefine single_card_mode true (some refined) none none none input =
        processRefinedCards single_card_mode refined) := by
  refine ⟨rfl, by simp [critiqueAndRefine], rfl, ?_, ?_⟩
  · by_cases h : refined = [] <;>
      simp [critiqueAndRefine, hintStage, groupStage, auditStage, applyStage, h]
  · intro h
    simp [critiqueAndRefine, hintStage, groupStage, auditStage, applyStage, h]

/-- C4 witness: the fail-soft equalities at a concrete instance. -/
theorem C4_fail_soft_stages_witness :
    ([⟨1, "{{c1::a}}".data, [], [], []⟩] : List RCard) ≠ [] ∧
    critiqueAndRefine true true (some [⟨1, "{{c1::a}}".data, [], [], []⟩]) none none none
        [⟨1, []⟩] =
      processRefinedCards true [⟨1, "{{c1::a}}".data, [], [], []⟩] :=
  ⟨by decide, (C4_fail_soft_stages true true none none none none
      [⟨1, "{{c1::a}}".data, [], [], []⟩] [] [⟨1, []⟩]).2.2.2.2 (by decide)⟩

/-! ## Claim C5: presence of empty slide results -/

/-- Merging a batch appends exactly the entries with nonempty card lists
to the accumulated results. -/
theorem mergeBatch_fst (batch : List SlideEntry) :
    ∀ (acc : List SlideEntry) (comp : Finset Nat),
      (mergeBatch acc comp batch).1 = acc ++ batch.filter fun e => e.cards ≠ [] := by
  induction batch with
  | nil => intro acc comp; simp [mergeBatch]
  | cons b rest ih =>
      intro acc comp
      have h := ih (mergeStep (acc, comp) b).1 (mergeStep (acc, comp) b).2
      by_cases hb : b.cards = [] <;>
        simp [mergeBatch, List.foldl_cons, mergeStep, hb, List.filter_cons] at h ⊢ <;>
        simp [h]

/-- Merging a batch records every entry's page id as completed. -/
theorem mergeBatch_snd (batch : List SlideEntry) :
    ∀ (acc : List SlideEntry) (comp : Finset Nat),
      (mergeBatch acc comp batch).2 = comp ∪ (batch.map SlideEntry.page_num).toFinset := by
  induction batch with
  | nil => intro acc comp; simp [mergeBatch]
  | cons b rest ih =>
      intro acc comp
      have h := ih (mergeStep (acc, comp) b).1 (mergeStep (acc, comp) b).2
      simp [mergeBatch, List.foldl_cons, mergeStep] at h ⊢
      simp [h, Finset.insert_union, Finset.union_insert]

/-- Every id of `1..numImages` is covered by some entry of the reconciled
batch result. -/
theorem reconcileBatch_coverage (single : Bool) (n : Nat) (parsed : List SlideEntry)
    (k : Nat) (h1 : 1 ≤ k) (h2 : k ≤ n) :
    ∃ e ∈ reconcileBatch single n parsed, e.page_num = k := by
  have hk : k ∈ List.range' 1 n := List.mem_range'_1.mpr ⟨h1, by omega⟩
  have hcompleted : ∃ e ∈ parsed ++
      ((List.range' 1 n).filter fun m => m ∉ parsed.map SlideEntry.page_num).map
        (fun m => (⟨m, []⟩ : SlideEntry)), e.page_num = k := by
    by_cases hmem : k ∈ parsed.map SlideEntry.page_num
    · obtain ⟨e, he, hpe⟩ := List.mem_map.mp hmem
      exact ⟨e, List.mem_append_left _ he, hpe⟩
    · refine ⟨⟨k, []⟩, List.mem_append_right _ ?_, rfl⟩
      exact List.mem_map_of_mem _ (List.mem_filter.mpr ⟨hk, by simpa using hmem⟩)
  obtain ⟨e, he, hpe⟩ := hcompleted
  have hsort := (List.perm_insertionSort entryLE
    (parsed ++ ((List.range' 1 n).filter fun m => m ∉ parsed.map SlideEntry.page_num).map
      (fun m => (⟨m, []⟩ : SlideEntry)))).mem_iff.mpr he
  exact ⟨⟨e.page_num, e.cards.map (processCard single)⟩,
    List.mem_map.mpr ⟨e, hsort, rfl⟩, hpe⟩

/-- Post-processing card texts changes no entry's page id, hence no
per-id entry count. -/
theorem filter_page_map_post (single : Bool) (k : Nat) :
    ∀ (l : List SlideEntry),
      ((l.map fun e => (⟨e.page_num, e.cards.map (processCard single)⟩ : SlideEntry)).filter
          fun e => e.page_num = k).length =
        (l.filter fun e => e.page_num = k).length
  | [] => rfl
  | e :: t => by
      by_cases h : e.page_num = k <;>
        simp [List.filter_cons, h, filter_page_map_post single k t]

/-- A list of entries whose page-id list misses `k` has no entry with
page id `k`. -/
theorem filter_page_eq_nil (k : Nat) :
    ∀ (l : List SlideEntry), k ∉ l.map SlideEntry.page_num →
      (l.filter fun e => e.page_num = k) = []
  | [], _ => rfl
  | e :: t, h => by
      rw [List.map_cons, List.mem_cons] at h
      push_neg at h
      have hne : ¬ e.page_num = k := fun he => h.1 he.symm
      rw [List.filter_cons, if_neg (by simpa using hne)]
      exact filter_page_eq_nil k t h.2

/-- With pairwise-distinct page ids, an id on the list is carried by
exactly one entry. -/
theorem filter_page_len_one (k : Nat) :
    ∀ (l : List SlideEntry), (l.map SlideEntry.page_num).Nodup →
      k ∈ l.map SlideEntry.page_num →
      (l.filter fun e => e.page_num = k).length = 1
  | [], _, hm => absurd hm (List.not_mem_nil k)
  | e :: t, hnd, hm => by
      rw [List.map_cons, List.nodup_cons] at hnd
      rw [List.map_cons, List.mem_cons] at hm
      rcases hm with rfl | hm
      · rw [show (((e :: t).filter fun x => x.page_num = e.page_num)) =
            e :: (t.filter fun x => x.page_num = e.page_num) by
          simp [List.filter_cons]]
        rw [filter_page_eq_nil e.page_num t hnd.1]
        rfl
      · have hne : ¬ e.page_num = k := fun he => hnd.1 (he ▸ hm)
        rw [List.filter_cons, if_neg (by simpa using hne)]
        exact filter_page_len_one k t hnd.2 hm

/-- Filtering synthesized entries by page id is filtering the id list. -/
theorem filter_mk_empty (k : Nat) :
    ∀ (ms : List Nat),
      ((ms.map fun m => (⟨m, []⟩ : SlideEntry)).filter fun e => e.page_num = k) =
        (ms.filter fun m => m = k).map fun m => (⟨m, []⟩ : SlideEntry)
  | [] => rfl
  | m :: t => by
      by_cases h : m = k <;> simp [List.filter_cons, h, filter_mk_empty k t]

/-- A number list missing `k` filters to nothing on `k`. -/
theorem filter_nat_eq_nil (k : Nat) :
    ∀ (l : List Nat), k ∉ l → (l.filter fun m => m = k) = []
  | [], _ => rfl
  | m :: t, h => by
      rw [List.mem_cons] at h
      push_neg at h
      have hne : ¬ m = k := fun he => h.1 he.symm
      rw [List.filter_cons, if_neg (by simpa using hne)]
      exact filter_nat_eq_nil k t h.2

/-- A duplicate-free number list containing `k` filters to exactly one
element on `k`. -/
theorem filter_nat_len_one (k : Nat) :
    ∀ (l : List Nat), l.Nodup → k ∈ l → (l.filter fun m => m = k).length = 1
  | [], _, hm => absurd hm (List.not_mem_nil k)
  | m :: t, hnd, hm => by
      rw [List.nodup_cons] at hnd
      rcases List.mem_cons.mp hm with rfl | hm
      · rw [show ((k :: t).filter fun x => x = k) = k :: (t.filter fun x => x = k) by
          simp [List.filter_cons]]
        rw [filter_nat_eq_nil k t hnd.1]
        rfl
      · have hne : ¬ m = k := fun he => hnd.1 (he ▸ hm)
        rw [List.filter_cons, if_neg (by simpa using hne)]
        exact filter_nat_len_one k t hnd.2 hm

/-- When the parsed reply carries no duplicate page ids, each id of
`1..numImages` has exactly one entry in the reconciled batch result. -/
theorem reconcileBatch_count (single : Bool) (n : Nat) (parsed : List SlideEntry)
    (hnd : (parsed.map SlideEntry.page_num).Nodup) (k : Nat)
    (h1 : 1 ≤ k) (h2 : k ≤ n) :
    ((reconcileBatch single n parsed).filter fun e => e.page_num = k).length = 1 := by
  show ((((parsed ++ ((List.range' 1 n).filter fun m =>
        m ∉ parsed.map SlideEntry.page_num).map fun m =>
          (⟨m, []⟩ : SlideEntry)).insertionSort entryLE).map fun e =>
        (⟨e.page_num, e.cards.map (processCard single)⟩ : SlideEntry)).filter
      fun e => e.page_num = k).length = 1
  rw [filter_page_map_post single k]
  have hperm := (List.perm_insertionSort entryLE
      (parsed ++ ((List.range' 1 n).filter fun m =>
        m ∉ parsed.map SlideEntry.page_num).map fun m =>
          (⟨m, []⟩ : SlideEntry))).filter fun e => decide (e.page_num = k)
  rw [hperm.length_eq, List.filter_append, List.length_append, filter_mk_empty k]
  by_cases hk : k ∈ parsed.map SlideEntry.page_num
  · rw [filter_page_len_one k parsed hnd hk]
    have hnotin : k ∉ (List.range' 1 n).filter fun m =>
        m ∉ parsed.map SlideEntry.page_num := by
      intro hmem
      have hf := (List.mem_filter.mp hmem).2
      rw [decide_eq_true_eq] at hf
      exact hf hk
    rw [filter_nat_eq_nil k _ hnotin, List.map_nil, List.length_nil]
  · rw [filter_page_eq_nil k parsed hk, List.length_nil]
    have hkin : k ∈ (List.range' 1 n).filter fun m =>
        m ∉ parsed.map SlideEntry.page_num := by
      refine List.mem_filter.mpr ⟨List.mem_range'_1.mpr ⟨h1, by omega⟩, ?_⟩
      rw [decide_eq_true_eq]
      exact hk
    have hndr : ((List.range' 1 n).filter fun m =>
        m ∉ parsed.map SlideEntry.page_num).Nodup :=
      (List.nodup_range' 1 n).filter _
    rw [List.length_map, filter_nat_len_one k _ hndr hkin]

/-- C5 counterexample: slide 2 was requested and produced no cards; the
reconciled batch entry `{page_num: 2, cards: []}` is marked completed, yet
no entry for page 2 appears in the accumulated per-document result
list. -/
theorem C5_counterexample :
    (mergeBatch [] ∅
        [⟨1, [⟨"{{c1::x}}".data, [], [], []⟩]⟩, ⟨2, []⟩]).1.map SlideEntry.page_num
        = [1] ∧
      2 ∈ (mergeBatch [] ∅
        [⟨1, [⟨"{{c1::x}}".data, [], [], []⟩]⟩, ⟨2, []⟩]).2 := by
  decide

/-- C5 (amended): when the parsed reply carries no duplicate page ids,
every id of `1..n` has exactly one entry in the reconciled batch response,
even with empty cards, and each batch entry's id is recorded as completed;
but the per-document accumulated result list keeps only the entries whose
card list is nonempty — empty-card slides are recorded solely in
`completed_slides`. -/
theorem C5_empty_results_amended (acc : List SlideEntry) (comp : Finset Nat)
    (batch parsed : List SlideEntry) (single : Bool) (n k : Nat)
    (h1 : 1 ≤ k) (h2 : k ≤ n) (hnd : (parsed.map SlideEntry.page_num).Nodup) :
    ((reconcileBatch single n parsed).filter fun e => e.page_num = k).length = 1 ∧
    (mergeBatch acc comp batch).1 = acc ++ (batch.filter fun e => e.cards ≠ []) ∧
    (mergeBatch acc comp batch).2 = comp ∪ (batch.map SlideEntry.page_num).toFinset :=
  ⟨reconcileBatch_count single n parsed hnd k h1 h2,
   mergeBatch_fst batch acc comp, mergeBatch_snd batch acc comp⟩

/-- C5 witness: the amended statement at a concrete instance. -/
theorem C5_empty_results_amended_witness :
    1 ≤ 2 ∧ 2 ≤ 2 ∧
      ([(⟨1, []⟩ : SlideEntry)].map SlideEntry.page_num).Nodup ∧
      (((reconcileBatch false 2 [⟨1, []⟩]).filter fun e => e.page_num = 2).length = 1 ∧
        (mergeBatch [] ∅ [⟨2, []⟩]).1 = [] ++ ([⟨2, []⟩].filter fun e => e.cards ≠ []) ∧
        (mergeBatch [] ∅ [⟨2, []⟩]).2 = ∅ ∪ ([⟨2, []⟩].map SlideEntry.page_num).toFinset) :=
  ⟨by decide, by decide, by decide,
   C5_empty_results_amended [] ∅ [⟨2, []⟩] [⟨1, []⟩] false 2 2 (by decide) (by decide)
     (by decide)⟩

/-! ## Claim C6: checkpoint file lifecycle -/

/-- When nothing is pending, the generation phase returns the loaded
progress unchanged. -/
theorem generationPhase_of_no_pending (ckpt : Option Progress) (N : Nat)
    (svc : Nat → List Card) (sc : Bool)
    (h : remainingSlides N (ckpt.getD ⟨N, ∅, []⟩).completed_slides = []) :
    generationPhase ckpt N svc sc = ckpt.getD ⟨N, ∅, []⟩ := by
  unfold generationPhase
  simp [h]

/-- C6: after a successful batch whose merged results are nonempty, a
packaging failure leaves the freshly saved checkpoint on disk (and the
exception escapes); a fully successful run deletes the checkpoint and
returns the package; and in every scenario the checkpoint can only have
been deleted if either the whole pipeline succeeded or no checkpoint was
ever written. -/
theorem C6_checkpoint_lifecycle (resume : Bool) (fs : Option Progress) (N : Nat)
    (svc : Nat → List Card) (sc ah bm : Bool) (s1 s2 s3 s4 : Option (List RCard))
    (hrem : remainingSlides N
      ((if resume then fs else none).getD ⟨N, ∅, []⟩).completed_slides ≠ [])
    (hcards : (generationPhase (if resume then fs else none) N svc sc).cards_data ≠ []) :
    processLecture resume fs N svc sc ah bm true s1 s2 s3 s4 false =
      ⟨some (generationPhase (if resume then fs else none) N svc sc), none, none⟩ ∧
    ((processLecture resume fs N svc sc ah bm true s1 s2 s3 s4 true).checkpoint = none ∧
      (processLecture resume fs N svc sc ah bm true s1 s2 s3 s4 true).result = some true) ∧
    (∀ batchOk packOk : Bool,
      (processLecture resume fs N svc sc ah bm batchOk s1 s2 s3 s4 packOk).checkpoint = none →
        (processLecture resume fs N svc sc ah bm batchOk s1 s2 s3 s4 packOk).result
            = some true ∨ fs = none) := by
  refine ⟨?_, ?_, ?_⟩
  · unfold processLecture
    simp [hrem, hcards]
  · unfold processLecture
    simp [hrem, hcards]
  · intro batchOk packOk
    unfold processLecture
    by_cases hr : remainingSlides N
        ((if resume then fs else none).getD ⟨N, ∅, []⟩).completed_slides ≠ [] <;>
      by_cases hb : batchOk <;>
        by_cases hc : (generationPhase (if resume then fs else none) N svc sc).cards_data
            = [] <;>
          by_cases hp : packOk <;>
            simp_all [generationPhase_of_no_pending]

/-- C6 witness: a one-slide document whose service yields one card; the
lifecycle facts hold concretely. -/
theorem C6_checkpoint_lifecycle_witness :
    (remainingSlides 1
      ((if true then (none : Option Progress) else none).getD ⟨1, ∅, []⟩).completed_slides ≠ [] ∧
      (generationPhase (if true then (none : Option Progress) else none) 1
          (fun _ => [⟨"{{c1::a}}".data, [], [], []⟩]) true).cards_data ≠ []) ∧
    processLecture true none 1 (fun _ => [⟨"{{c1::a}}".data, [], [], []⟩]) true true true
        true none none none none false =
      ⟨some (generationPhase (if true then (none : Option Progress) else none) 1
        (fun _ => [⟨"{{c1::a}}".data, [], [], []⟩]) true), none, none⟩ :=
  ⟨⟨by decide, by decide⟩,
   (C6_checkpoint_lifecycle true none 1 (fun _ => [⟨"{{c1::a}}".data, [], [], []⟩])
      true true true none none none none (by decide) (by decide)).1⟩

/-! ## Claim C3: retry loop sleeps and outcomes -/

/-- A retry loop entered at attempt `a ≥ 1` whose transport first succeeds
at attempt `R` (with enough fuel left) sleeps before each remaining
attempt `a..R` and succeeds. -/
theorem retryLoop_succeeds (f : Nat → ℚ) (R : Nat) :
    ∀ (fuel a : Nat), 1 ≤ a → a ≤ R → R - a < fuel →
      retryLoop f (fun k => decide (R ≤ k)) a fuel =
        ((List.range' a (R + 1 - a)).map f, true) := by
  intro fuel
  induction fuel with
  | zero => intro a _ _ h; omega
  | succ n ih =>
      intro a ha haR hfuel
      have ha0 : 0 < a := ha
      by_cases haR' : a = R
      · subst haR'
        simp [retryLoop, ha0, show a + 1 - a = 1 by omega, List.range']
      · have h1 : ¬(R ≤ a) := by omega
        have h2 := ih (a + 1) (by omega) (by omega) (by omega)
        have hr : List.range' a (R + 1 - a) = a :: List.range' (a + 1) (R + 1 - (a + 1)) := by
          have he : R + 1 - a = (R + 1 - (a + 1)) + 1 := by omega
          rw [he, List.range'_succ]
        rw [hr]
        simp [retryLoop, ha0, h1, h2]


/-- A retry loop entered at attempt `a ≥ 1` whose transport keeps failing
for its whole fuel budget sleeps before every attempt and fails. -/
theorem retryLoop_exhausts (f : Nat → ℚ) (R : Nat) :
    ∀ (fuel a : Nat), 1 ≤ a → a + fuel ≤ R →
      retryLoop f (fun k => decide (R ≤ k)) a fuel =
        ((List.range' a fuel).map f, false) := by
  intro fuel
  induction fuel with
  | zero => intro a _ _; simp [retryLoop]
  | succ n ih =>
      intro a ha hle
      have ha0 : 0 < a := ha
      have h1 : ¬(R ≤ a) := by omega
      have h2 := ih (a + 1) (by omega) (by omega)
      rw [List.range'_succ]
      simp [retryLoop, ha0, h1, h2]

/-- The batch-generation retry loop with a transport that fails exactly
`R < maxRetries` times: it performs exactly the `R` sleeps
`2 ^ k + jitter k` for `k = 1..R` and succeeds. -/
theorem batchRetryRun_succeeds (max_retries R : Nat) (jitter : Nat → ℚ)
    (h : R < max_retries) :
    batchRetryRun max_retries jitter (fun a => decide (R ≤ a)) =
      ((List.range' 1 R).map fun k => 2 ^ k + jitter k, true) := by
  unfold batchRetryRun
  match max_retries, h with
  | fuel + 1, h =>
      by_cases hR : R = 0
      · subst hR
        simp [retryLoop, List.range']
      · have h2 := retryLoop_succeeds (fun a => 2 ^ a + jitter a) R fuel 1
          (le_refl 1) (by omega) (by omega)
        have h1 : ¬(R ≤ 0) := by omega
        simp only [retryLoop, decide_eq_true_eq, h1, ite_false, lt_irrefl, h2]
        simp [show R + 1 - 1 = R by omega]

/-- The refinement-stage retry loop with a transport that fails exactly
`R < maxRetries` times: exactly the `R` sleeps `30 * k` for `k = 1..R`,
then success. -/
theorem critiqueRetryRun_succeeds (max_retries R : Nat) (h : R < max_retries) :
    critiqueRetryRun max_retries (fun a => decide (R ≤ a)) =
      ((List.range' 1 R).map fun k : Nat => 30 * (k : ℚ), true) := by
  unfold critiqueRetryRun
  match max_retries, h with
  | fuel + 1, h =>
      by_cases hR : R = 0
      · subst hR
        simp [retryLoop, List.range']
      · have h2 := retryLoop_succeeds (fun a => 30 * (a : ℚ)) R fuel 1
          (le_refl 1) (by omega) (by omega)
        rw [show R + 1 - 1 = R from by omega] at h2
        have h1 : ¬(R ≤ 0) := by omega
        simp only [retryLoop, show ¬(0:Nat) < 0 from by omega, if_false, ite_false,
          decide_eq_true_eq, h1, h2, List.nil_append]

/-- A retry loop whose transport keeps failing performs `maxRetries - 1`
sleeps (none before the first attempt) and reports failure. -/
theorem batchRetryRun_exhausts (max_retries R : Nat) (jitter : Nat → ℚ)
    (h : max_retries ≤ R) :
    batchRetryRun max_retries jitter (fun a => decide (R ≤ a)) =
      ((List.range' 1 (max_retries - 1)).map fun k => 2 ^ k + jitter k, false) := by
  unfold batchRetryRun
  match max_retries, h with
  | 0, _ => simp [retryLoop]
  | fuel + 1, h =>
      have h2 := retryLoop_exhausts (fun a => 2 ^ a + jitter a) R fuel 1
        (le_refl 1) (by omega)
      have h1 : ¬(R ≤ 0) := by omega
      simp only [retryLoop, decide_eq_true_eq, h1, ite_false, lt_irrefl, h2]
      simp

/-- Same for the refinement-stage loop. -/
theorem critiqueRetryRun_exhausts (max_retries R : Nat) (h : max_retries ≤ R) :
    critiqueRetryRun max_retries (fun a => decide (R ≤ a)) =
      ((List.range' 1 (max_retries - 1)).map fun k : Nat => 30 * (k : ℚ), false) := by
  unfold critiqueRetryRun
  match max_retries, h with
  | 0, _ => simp [retryLoop]
  | fuel + 1, h =>
      have h2 := retryLoop_exhausts (fun a => 30 * (a : ℚ)) R fuel 1
        (le_refl 1) (by omega)
      have h1 : ¬(R ≤ 0) := by omega
      simp only [retryLoop, show ¬(0:Nat) < 0 from by omega, if_false, ite_false,
        decide_eq_true_eq, h1, h2, List.nil_append, Nat.add_sub_cancel]

/-- Mapping a function that is monotone from 1 on over `range' a n` yields
a non-decreasing list. -/
theorem chain_map_range' (f : Nat → ℚ) (hf : ∀ k, 1 ≤ k → f k ≤ f (k + 1)) :
    ∀ (n a : Nat), 1 ≤ a → ((List.range' a n).map f).Chain' (· ≤ ·) := by
  intro n
  induction n with
  | zero => intro a _; simp
  | succ m ih =>
      intro a ha
      rw [List.range'_succ]
      match m with
      | 0 => simp
      | m' + 1 =>
          rw [List.range'_succ]
          simp only [List.map_cons]
          rw [List.chain'_cons]
          have := ih (a + 1) (by omega)
          rw [List.range'_succ] at this
          exact ⟨hf a ha, by simpa using this⟩

/-- C3 counterexample: the refinement-stage retry loop
(`critique_and_refine_cards`) with a transport failing exactly once sleeps
30 seconds before its second attempt, which no value of the claimed
formula `min(cap, 2^(2-1)) + uniform_jitter(0,1)` can equal. -/
theorem C3_counterexample :
    critiqueRetryRun 3 (fun a => decide (1 ≤ a)) = ([30], true) ∧
      ∀ cap j : ℚ, 0 ≤ j → j < 1 → min cap 2 + j ≠ 30 := by
  constructor
  · have h := critiqueRetryRun_succeeds 3 1 (by omega)
    simpa [List.range'] using h
  · intro cap j h0 h1 heq
    have hm : min cap 2 ≤ 2 := min_le_right cap 2
    have : min cap 2 + j < 3 := by linarith
    rw [heq] at this
    norm_num at this

/-- C3 (amended): the batch-generation loop sleeps exactly
`2^(k-1) + uniform_jitter(0,1)` before each attempt `k > 1` — equivalently
`min(cap, 2^(k-1)) + jitter` for any cap at least the largest backoff,
since the code applies no cap — with non-decreasing waits, performing
exactly `R` sleeps before succeeding when the transport fails `R <
maxAttempts` times, and returning a failure value (never raising) on
exhaustion after `maxAttempts - 1` sleeps; the refinement-stage loops
instead sleep `30·(k-1)` seconds with no jitter. -/
theorem C3_retry_backoff_amended (maxR R R' : Nat) (cap : ℚ) (jitter : Nat → ℚ)
    (hj : ∀ i, 0 ≤ jitter i ∧ jitter i < 1)
    (hcap : (2 : ℚ) ^ (maxR - 1) ≤ cap)
    (hR : R < maxR) (hR' : maxR ≤ R') :
    batchRetryRun maxR jitter (fun a => decide (R ≤ a)) =
      ((List.range' 1 R).map fun k => min cap (2 ^ k) + jitter k, true) ∧
    ((batchRetryRun maxR jitter (fun a => decide (R ≤ a))).1).Chain' (· ≤ ·) ∧
    critiqueRetryRun maxR (fun a => decide (R ≤ a)) =
      ((List.range' 1 R).map fun k : Nat => 30 * (k : ℚ), true) ∧
    batchRetryRun maxR jitter (fun a => decide (R' ≤ a)) =
      ((List.range' 1 (maxR - 1)).map fun k => 2 ^ k + jitter k, false) ∧
    critiqueRetryRun maxR (fun a => decide (R' ≤ a)) =
      ((List.range' 1 (maxR - 1)).map fun k : Nat => 30 * (k : ℚ), false) := by
  have hmin : ∀ k ∈ List.range' 1 R, min cap ((2:ℚ) ^ k) + jitter k = 2 ^ k + jitter k := by
    intro k hk
    have hk2 := List.mem_range'_1.mp hk
    have hle : (2:ℚ) ^ k ≤ 2 ^ (maxR - 1) :=
      pow_le_pow_right₀ (by norm_num) (by omega)
    rw [min_eq_right (le_trans hle hcap)]
  refine ⟨?_, ?_, critiqueRetryRun_succeeds maxR R hR,
    batchRetryRun_exhausts maxR R' jitter hR', critiqueRetryRun_exhausts maxR R' hR'⟩
  · rw [batchRetryRun_succeeds maxR R jitter hR]
    exact congrArg (·, true) (List.map_congr_left fun k hk => (hmin k hk).symm)
  · rw [batchRetryRun_succeeds maxR R jitter hR]
    refine chain_map_range' _ ?_ R 1 (le_refl 1)
    intro k hk
    have h1k : (1:ℚ) ≤ 2 ^ k := one_le_pow₀ (by norm_num)
    have hj1 := (hj k).2
    have hj2 := (hj (k + 1)).1
    have : (2:ℚ) ^ (k + 1) = 2 ^ k + 2 ^ k := by ring
    nlinarith [hj1, hj2, h1k]

/-- C3 witness: the amended statement at `maxAttempts = 3`, a transport
failing once (success case) and one failing forever (exhaustion case),
`cap = 4`, constant jitter `1/2`. -/
theorem C3_retry_backoff_amended_witness :
    ((∀ _ : Nat, 0 ≤ (1 : ℚ)/2 ∧ (1 : ℚ)/2 < 1) ∧ (2:ℚ) ^ (3 - 1) ≤ 4 ∧
      1 < 3 ∧ 3 ≤ 5) ∧
    (batchRetryRun 3 (fun _ => (1:ℚ)/2) (fun a => decide (1 ≤ a)) =
      ((List.range' 1 1).map fun k => min 4 (2 ^ k) + (1:ℚ)/2, true) ∧
    ((batchRetryRun 3 (fun _ => (1:ℚ)/2) (fun a => decide (1 ≤ a))).1).Chain' (· ≤ ·) ∧
    critiqueRetryRun 3 (fun a => decide (1 ≤ a)) =
      ((List.range' 1 1).map fun k : Nat => 30 * (k : ℚ), true) ∧
    batchRetryRun 3 (fun _ => (1:ℚ)/2) (fun a => decide (5 ≤ a)) =
      ((List.range' 1 (3 - 1)).map fun k => 2 ^ k + (1:ℚ)/2, false) ∧
    critiqueRetryRun 3 (fun a => decide (5 ≤ a)) =
      ((List.range' 1 (3 - 1)).map fun k : Nat => 30 * (k : ℚ), false)) :=
  ⟨⟨fun _ => ⟨by norm_num, by norm_num⟩, by norm_num, by norm_num, by norm_num⟩,
   C3_retry_backoff_amended 3 1 5 4 (fun _ => (1:ℚ)/2)
     (fun _ => ⟨by norm_num, by norm_num⟩) (by norm_num) (by norm_num) (by norm_num)⟩

/-- C1 counterexample: a batch request for slides 2 and 3 (two images, so
`expected_slide_nums = {1, 2}`) whose reply covers exactly the requested
ids 2 and 3.  The reconciled result has three entries with page ids
1, 2, 3 — synthesizing an entry for id 1 that was never requested — rather
than exactly one entry per requested id. -/
theorem C1_counterexample :
    (reconcileBatch false 2 [⟨2, []⟩, ⟨3, []⟩]).map SlideEntry.page_num = [1, 2, 3] ∧
      ¬ ((reconcileBatch false 2 [⟨2, []⟩, ⟨3, []⟩]).map SlideEntry.page_num).Perm
          [2, 3] := by
  decide

/-- C1 (amended): the reconciliation computes its expected ids as
`{1..len(images)}`, not as the requested slide-id set.  It keeps every
parsed entry (including ids outside the requested set, and duplicates) and
synthesizes `{page_id, cards: []}` exactly for the ids of
`{1..len(images)}` missing from the reply; the result is sorted by
`page_id` ascending, covers every id of `{1..len(images)}`, and every
entry whose id was not in the reply has empty cards. -/
theorem C1_reconcile_amended (single : Bool) (n : Nat) (parsed : List SlideEntry) :
    (reconcileBatch single n parsed).Perm
      ((parsed ++ ((List.range' 1 n).filter fun m => m ∉ parsed.map SlideEntry.page_num).map
          fun m => (⟨m, []⟩ : SlideEntry)).map
        fun e => ⟨e.page_num, e.cards.map (processCard single)⟩) ∧
    (reconcileBatch single n parsed).Pairwise entryLE ∧
    (∀ k, 1 ≤ k → k ≤ n → ∃ e ∈ reconcileBatch single n parsed, e.page_num = k) ∧
    (∀ e ∈ reconcileBatch single n parsed,
      e.page_num ∉ parsed.map SlideEntry.page_num → e.cards = []) := by
  refine ⟨?_, ?_, fun k h1 h2 => reconcileBatch_coverage single n parsed k h1 h2, ?_⟩
  · exact (List.perm_insertionSort entryLE _).map _
  · unfold reconcileBatch
    refine List.Pairwise.map _ (fun a b hab => hab) ?_
    exact List.sorted_insertionSort entryLE _
  · intro e he hnot
    unfold reconcileBatch at he
    obtain ⟨e', he', rfl⟩ := List.mem_map.mp he
    have he'' := (List.perm_insertionSort entryLE _).mem_iff.mp he'
    rcases List.mem_append.mp he'' with hp | hs
    · exact absurd (List.mem_map_of_mem SlideEntry.page_num hp) hnot
    · obtain ⟨m, _, rfl⟩ := List.mem_map.mp hs
      rfl

/-- C1 witness: coverage of the amended statement at a concrete input. -/
theorem C1_reconcile_amended_witness :
    1 ≤ 1 ∧ 1 ≤ 1 ∧ ∃ e ∈ reconcileBatch false 1 [], e.page_num = 1 :=
  ⟨le_refl 1, le_refl 1,
    (C1_reconcile_amended false 1 []).2.2.1 1 (le_refl 1) (le_refl 1)⟩

/-! ## Claim C2: idempotent resume -/

/-- Two permuted lists that are both strictly sorted by page id are
equal. -/
theorem eq_of_perm_of_pairwise_lt :
    ∀ (l₁ l₂ : List SlideEntry), l₁.Perm l₂ →
      l₁.Pairwise (fun a b => a.page_num < b.page_num) →
      l₂.Pairwise (fun a b => a.page_num < b.page_num) → l₁ = l₂ := by
  intro l₁
  induction l₁ with
  | nil => intro l₂ hp _ _; exact hp.nil_eq.symm ▸ rfl
  | cons a t₁ ih =>
      intro l₂ hp h₁ h₂
      match l₂ with
      | [] => exact absurd hp.symm.nil_eq (by simp)
      | b :: t₂ =>
          by_cases hab : a = b
          · subst hab
            have := ih t₂ hp.cons_inv (List.Pairwise.of_cons h₁) (List.Pairwise.of_cons h₂)
            rw [this]
          · have ha2 : a ∈ b :: t₂ := hp.subset (List.mem_cons_self a t₁)
            have hat2 : a ∈ t₂ := by
              rcases List.mem_cons.mp ha2 with h | h
              · exact absurd h hab
              · exact h
            have hb1 : b ∈ a :: t₁ := hp.symm.subset (List.mem_cons_self b t₂)
            have hbt1 : b ∈ t₁ := by
              rcases List.mem_cons.mp hb1 with h | h
              · exact absurd h.symm hab
              · exact h
            have hlt1 : a.page_num < b.page_num := (List.pairwise_cons.mp h₁).1 b hbt1
            have hlt2 : b.page_num < a.page_num := (List.pairwise_cons.mp h₂).1 a hat2
            omega

/-- Insertion sort moves an already strictly page-sorted rearrangement
into place: if `ys ++ xs` is strictly sorted, sorting `xs ++ ys` yields
`ys ++ xs`. -/
theorem insertionSort_append_of_sorted (xs ys : List SlideEntry)
    (h : (ys ++ xs).Pairwise fun a b => a.page_num < b.page_num) :
    (xs ++ ys).insertionSort entryLE = ys ++ xs := by
  have hperm : ((xs ++ ys).insertionSort entryLE).Perm (ys ++ xs) :=
    (List.perm_insertionSort entryLE (xs ++ ys)).trans List.perm_append_comm
  have hne : ((xs ++ ys).insertionSort entryLE).Pairwise
      fun a b => a.page_num ≠ b.page_num := by
    have hsymm : Symmetric fun a b : SlideEntry => a.page_num ≠ b.page_num :=
      fun a b hab => hab.symm
    exact (List.Perm.pairwise_iff (fun hab => hsymm hab) hperm).mpr (h.imp Nat.ne_of_lt)
  have hle : ((xs ++ ys).insertionSort entryLE).Pairwise entryLE :=
    List.sorted_insertionSort entryLE (xs ++ ys)
  have hlt : ((xs ++ ys).insertionSort entryLE).Pairwise
      fun a b => a.page_num < b.page_num :=
    (hle.and hne).imp fun hab => Nat.lt_of_le_of_ne hab.1 hab.2
  exact eq_of_perm_of_pairwise_lt _ _ hperm hlt h

/-- Reconciling a batch over the contiguous pending slides `a..a+m-1`
against a deterministic mock service: the synthesized entries (ids of
`1..m` outside the request, all below `a`) come first, then the processed
service entries in request order. -/
theorem reconcileBatch_range (single : Bool) (svc : Nat → List Card) (a m : Nat)
    (ha : 1 ≤ a) :
    reconcileBatch single m ((List.range' a m).map fun p => ⟨p, svc p⟩) =
      (((List.range' 1 m).filter fun p => p ∉ List.range' a m).map
          fun p => (⟨p, []⟩ : SlideEntry)) ++
        (List.range' a m).map fun p => SlideEntry.mk p ((svc p).map (processCard single)) := by
  have hpages : ((List.range' a m).map fun p => (⟨p, svc p⟩ : SlideEntry)).map
      SlideEntry.page_num = List.range' a m := by
    rw [List.map_map]
    show List.map (fun p : Nat => p) (List.range' a m) = List.range' a m
    simp
  have hsorted : ((((List.range' 1 m).filter fun p => p ∉ List.range' a m).map
      fun p => (⟨p, []⟩ : SlideEntry)) ++
        ((List.range' a m).map fun p => (⟨p, svc p⟩ : SlideEntry))).Pairwise
      fun x y => x.page_num < y.page_num := by
    rw [List.pairwise_append]
    refine ⟨?_, ?_, ?_⟩
    · rw [List.pairwise_map]
      exact ((List.pairwise_lt_range' 1 m).filter _)
    · rw [List.pairwise_map]
      exact List.pairwise_lt_range' a m
    · intro x hx y hy
      obtain ⟨p, hp, rfl⟩ := List.mem_map.mp hx
      obtain ⟨q, hq, rfl⟩ := List.mem_map.mp hy
      have hpf := List.mem_filter.mp hp
      have hp1 := List.mem_range'_1.mp hpf.1
      have hq1 := List.mem_range'_1.mp hq
      have hpf2 : p < a ∨ a + m ≤ p := by simpa using hpf.2
      show p < q
      omega
  unfold reconcileBatch
  dsimp only
  rw [hpages]
  rw [insertionSort_append_of_sorted _ _ hsorted]
  rw [List.map_append, List.map_map, List.map_map]
  congr 1

/-- The generation phase of a fresh (uncheckpointed) run on `M` slides:
every slide is requested, all ids become completed, and exactly the
nonempty processed entries are accumulated in page order. -/
theorem generationPhase_none_eq (svc : Nat → List Card) (single : Bool) (M : Nat) :
    generationPhase none M svc single =
      ⟨M, (List.range' 1 M).toFinset,
        ((List.range' 1 M).map fun p =>
            SlideEntry.mk p ((svc p).map (processCard single))).filter
          fun e => e.cards ≠ []⟩ := by
  match M with
  | 0 => simp [generationPhase, remainingSlides, List.range']
  | M' + 1 =>
      have hrem : remainingSlides (M' + 1) (∅ : Finset Nat) = List.range' 1 (M' + 1) := by
        unfold remainingSlides
        exact List.filter_eq_self.mpr fun p _ => by simp
      have hne : ¬(List.range' 1 (M' + 1) = []) := by
        intro h
        have h2 := List.length_range' 1 1 (M' + 1)
        rw [h] at h2
        simp at h2
      have hsynth : ((List.range' 1 (M' + 1)).filter
          fun p => p ∉ List.range' 1 (M' + 1)) = [] :=
        List.filter_eq_nil_iff.mpr fun p hp => by simp [hp]
      have hlen : (List.range' 1 (M' + 1)).length = M' + 1 := List.length_range' 1 1 (M' + 1)
      unfold generationPhase
      dsimp only [Option.getD_none]
      rw [hrem, if_neg hne, hlen]
      rw [reconcileBatch_range single svc 1 (M' + 1) (le_refl 1), hsynth]
      rw [List.map_nil, List.nil_append, mergeBatch_fst, mergeBatch_snd]
      have hpages : ((List.range' 1 (M' + 1)).map fun p =>
          SlideEntry.mk p ((svc p).map (processCard single))).map SlideEntry.page_num =
          List.range' 1 (M' + 1) := by
        rw [List.map_map]
        show List.map (fun p : Nat => p) _ = _
        simp
      rw [hpages]
      simp

/-- C2: a resumed run with checkpoint `completed_slide_ids = {1..k}` of
`N` issues its batch request exactly for slides `{k+1..N}`, and its final
saved progress — merged results and completed set — equals that of an
uninterrupted run over all `N` slides against the same mock service. -/
theorem C2_idempotent_resume (N k : Nat) (svc : Nat → List Card) (single : Bool)
    (hk : k ≤ N) :
    remainingSlides N (generationPhase none k svc single).completed_slides =
      List.range' (k + 1) (N - k) ∧
    generationPhase (some (generationPhase none k svc single)) N svc single =
      generationPhase none N svc single := by
  have hgk := generationPhase_none_eq svc single k
  have hgN := generationPhase_none_eq svc single N
  have hsplit := List.range'_append 1 k (N - k) 1
  rw [Nat.one_mul, Nat.add_comm 1 k, show N - k + k = N from by omega] at hsplit
  have hrem : remainingSlides N ((List.range' 1 k).toFinset) =
      List.range' (k + 1) (N - k) := by
    unfold remainingSlides
    rw [← hsplit, List.filter_append]
    have h1 : (List.range' 1 k).filter
        (fun n => n ∉ (List.range' 1 k).toFinset) = [] :=
      List.filter_eq_nil_iff.mpr fun p hp => by simp [List.mem_toFinset.mpr hp]
    have h2 : (List.range' (k + 1) (N - k)).filter
        (fun n => n ∉ (List.range' 1 k).toFinset) = List.range' (k + 1) (N - k) :=
      List.filter_eq_self.mpr fun p hp => by
        have hp' := List.mem_range'_1.mp hp
        simp only [decide_eq_true_eq, List.mem_toFinset, List.mem_range'_1]
        omega
    rw [h1, h2, List.nil_append]
  have hcompleted : (generationPhase none k svc single).completed_slides =
      (List.range' 1 k).toFinset := by rw [hgk]
  constructor
  · rw [hcompleted, hrem]
  by_cases hkN : k = N
  · subst hkN
    have hrem0 : remainingSlides k ((List.range' 1 k).toFinset) = [] := by
      rw [hrem]
      simp [show k - k = 0 from by omega, List.range']
    rw [hgk]
    unfold generationPhase
    dsimp only [Option.getD_some]
    rw [hrem0]
    simp
  · have hk' : k < N := by omega
    have hremne : ¬(List.range' (k + 1) (N - k) = []) := by
      intro h
      have h2 := List.length_range' (k + 1) 1 (N - k)
      rw [h] at h2
      simp at h2
      omega
    rw [hgk, hgN]
    unfold generationPhase
    dsimp only [Option.getD_some]
    rw [hrem, if_neg hremne, List.length_range' (k + 1) 1 (N - k),
      reconcileBatch_range single svc (k + 1) (N - k) (by omega)]
    refine congrArg₂ (Progress.mk N) ?_ ?_
    · rw [mergeBatch_snd]
      apply Finset.ext
      intro p
      simp only [Finset.mem_union, List.mem_toFinset, List.map_append, List.map_map,
        List.mem_append, List.mem_map, List.mem_filter, List.mem_range'_1,
        Function.comp]
      constructor
      · rintro (h | h)
        · omega
        · rcases h with ⟨q, hq, rfl⟩ | ⟨q, hq, rfl⟩
          · obtain ⟨hq1, -⟩ := hq
            omega
          · omega
      · intro hp
        by_cases hpk : p ≤ k
        · exact Or.inl (by omega)
        · refine Or.inr (Or.inr ⟨p, ?_, rfl⟩)
          omega
    · rw [mergeBatch_fst, List.filter_append]
      have hsynthf : (((List.range' 1 (N - k)).filter
          fun p => p ∉ List.range' (k + 1) (N - k)).map
            fun p => (⟨p, []⟩ : SlideEntry)).filter (fun e => e.cards ≠ []) = [] :=
        List.filter_eq_nil_iff.mpr fun e he => by
          obtain ⟨p, _, rfl⟩ := List.mem_map.mp he
          simp
      rw [hsynthf, List.nil_append, ← hsplit, List.map_append, List.filter_append]

/-- C2 witness: resume after 2 of 3 slides against a concrete mock
service. -/
theorem C2_idempotent_resume_witness :
    2 ≤ 3 ∧
      (remainingSlides 3 (generationPhase none 2
            (fun _ => [⟨"{{c1::a}}".data, [], [], []⟩]) true).completed_slides =
          List.range' 3 1 ∧
        generationPhase
            (some (generationPhase none 2 (fun _ => [⟨"{{c1::a}}".data, [], [], []⟩]) true)) 3
            (fun _ => [⟨"{{c1::a}}".data, [], [], []⟩]) true =
          generationPhase none 3 (fun _ => [⟨"{{c1::a}}".data, [], [], []⟩]) true) :=
  ⟨by decide, C2_idempotent_resume 3 2 (fun _ => [⟨"{{c1::a}}".data, [], [], []⟩]) true (by decide)⟩

/-! ## Claim C7: the cloze-format validation of surviving cards -/

/-- Total number of cards across a slide-structured result list. -/
def totalCards (l : List SlideEntry) : Nat :=
  (l.map fun e => e.cards.length).sum

/-- Inserting a card under a slide preserves distinctness of the page
ids. -/
theorem insertRefined_nodup (acc : List SlideEntry) (n : Nat) (c : Card)
    (h : (acc.map SlideEntry.page_num).Nodup) :
    ((insertRefined acc n c).map SlideEntry.page_num).Nodup := by
  unfold insertRefined
  by_cases hany : acc.any fun e => e.page_num = n
  · rw [if_pos hany]
    have hpages : ((acc.map fun e =>
        if e.page_num = n then (⟨e.page_num, e.cards ++ [c]⟩ : SlideEntry) else e).map
          SlideEntry.page_num) = acc.map SlideEntry.page_num := by
      rw [List.map_map]
      refine List.map_congr_left fun e _ => ?_
      by_cases he : e.page_num = n <;> simp [he]
    rw [hpages]
    exact h
  · rw [if_neg hany]
    rw [List.map_append]
    have hany' : ∀ e ∈ acc, ¬(e.page_num = n) := by
      intro e he
      have h1 : acc.any (fun e => decide (e.page_num = n)) = false :=
        Bool.eq_false_iff.mpr hany
      have h2 := List.any_eq_false.mp h1 e he
      simpa using h2
    have hnot : n ∉ acc.map SlideEntry.page_num := by
      intro hmem
      obtain ⟨e, he, hpe⟩ := List.mem_map.mp hmem
      exact hany' e he hpe
    simp only [List.map_cons, List.map_nil]
    exact List.Nodup.append h (List.nodup_singleton n)
      (by simpa [List.disjoint_singleton] using hnot)

/-- Inserting a card under a slide adds exactly one card to the total
count (page ids assumed distinct, as maintained by the regrouping
fold). -/
theorem insertRefined_totalCards (n : Nat) (c : Card) :
    ∀ (acc : List SlideEntry), (acc.map SlideEntry.page_num).Nodup →
      totalCards (insertRefined acc n c) = totalCards acc + 1 := by
  intro acc
  induction acc with
  | nil => intro _; simp [insertRefined, totalCards]
  | cons e rest ih =>
      intro hnd
      rw [List.map_cons, List.nodup_cons] at hnd
      unfold insertRefined
      by_cases hany : (e :: rest).any fun x => x.page_num = n
      · rw [if_pos hany]
        by_cases he : e.page_num = n
        · have hrest : rest.map (fun x =>
              if x.page_num = n then (⟨x.page_num, x.cards ++ [c]⟩ : SlideEntry) else x) =
              rest := by
            conv_rhs => rw [show rest = rest.map id from (List.map_id rest).symm]
            refine List.map_congr_left fun x hx => ?_
            have hxn : x.page_num ≠ n := by
              intro hxn
              have hmem : x.page_num ∈ rest.map SlideEntry.page_num :=
                List.mem_map_of_mem SlideEntry.page_num hx
              rw [hxn, ← he] at hmem
              exact hnd.1 hmem
            simp [hxn]
          simp [totalCards, he, hrest]
          omega
        · have hany' : rest.any (fun x => x.page_num = n) = true := by
            simp only [List.any_cons, Bool.or_eq_true, decide_eq_true_eq] at hany
            rcases hany with h | h
            · exact absurd h he
            · simpa using h
          have hinsert : insertRefined rest n c = rest.map fun x =>
              if x.page_num = n then (⟨x.page_num, x.cards ++ [c]⟩ : SlideEntry) else x := by
            unfold insertRefined
            rw [if_pos hany']
          have := ih hnd.2
          rw [hinsert] at this
          simp only [List.map_cons, if_neg he]
          simp [totalCards] at this ⊢
          omega
      · rw [if_neg hany]
        simp [totalCards]
        omega

/-- The regrouping fold never merges distinct slides' entries: page ids
stay distinct. -/
theorem fold_insertRefined_nodup (single : Bool) :
    ∀ (cards : List RCard) (acc : List SlideEntry),
      (acc.map SlideEntry.page_num).Nodup →
      ((cards.foldl (fun a c => insertRefined a c.slide (refinedToCard single c))
          acc).map SlideEntry.page_num).Nodup := by
  intro cards
  induction cards with
  | nil => intro acc h; exact h
  | cons c rest ih =>
      intro acc h
      exact ih _ (insertRefined_nodup acc c.slide (refinedToCard single c) h)

/-- The regrouping fold adds exactly one card per input card. -/
theorem fold_insertRefined_totalCards (single : Bool) :
    ∀ (cards : List RCard) (acc : List SlideEntry),
      (acc.map SlideEntry.page_num).Nodup →
      totalCards (cards.foldl (fun a c => insertRefined a c.slide (refinedToCard single c))
          acc) = totalCards acc + cards.length := by
  intro cards
  induction cards with
  | nil => intro acc _; simp
  | cons c rest ih =>
      intro acc h
      have h1 := ih (insertRefined acc c.slide (refinedToCard single c))
        (insertRefined_nodup acc c.slide (refinedToCard single c) h)
      have h2 := insertRefined_totalCards c.slide (refinedToCard single c) acc h
      simp only [List.foldl_cons]
      rw [h1, h2, List.length_cons]
      omega

/-- Every card present after an insertion was already present or is the
inserted card. -/
theorem insertRefined_mem (acc : List SlideEntry) (n : Nat) (c0 : Card)
    (P : Card → Prop) (hacc : ∀ e ∈ acc, ∀ c ∈ e.cards, P c) (hc0 : P c0) :
    ∀ e ∈ insertRefined acc n c0, ∀ c ∈ e.cards, P c := by
  intro e he c hc
  unfold insertRefined at he
  by_cases hany : acc.any fun x => x.page_num = n
  · rw [if_pos hany] at he
    obtain ⟨e', he', rfl⟩ := List.mem_map.mp he
    by_cases hpe : e'.page_num = n
    · rw [if_pos hpe] at hc
      simp only at hc
      rcases List.mem_append.mp hc with h | h
      · exact hacc e' he' c h
      · rw [List.mem_singleton.mp h]
        exact hc0
    · rw [if_neg hpe] at hc
      exact hacc e' he' c hc
  · rw [if_neg hany] at he
    rcases List.mem_append.mp he with h | h
    · exact hacc e h c hc
    · rw [List.mem_singleton.mp h] at hc
      simp only at hc
      rw [List.mem_singleton.mp hc]
      exact hc0

/-- C7 counterexample: a card without any cloze marker returned by the
`Refine` stage is not dropped after that stage — the failing `Hint` stage
still holds it, so it flows into the later stages' input rather than
being removed at the stage boundary. -/
theorem C7_counterexample :
    hintStage true [⟨1, "no marker here".data, [], [], []⟩] none =
      [⟨1, "no marker here".data, [], [], []⟩] ∧
    hasClozeSub "no marker here".data = false := by
  constructor
  · rfl
  · decide

/-- C7 (amended): the cloze validation happens once, in
`_process_refined_cards` after the last stage, not after each stage: the
final regrouped output contains exactly one card per refined card whose
text contains `{{c` (in particular none of the marker-less ones), and
every output card derives from such a surviving card. -/
theorem C7_cloze_validation_amended (single : Bool) (rc : List RCard) :
    totalCards (processRefinedCards single rc) =
      (rc.filter fun c => hasClozeSub c.text).length ∧
    ∀ e ∈ processRefinedCards single rc, ∀ c ∈ e.cards,
      ∃ r ∈ rc, hasClozeSub r.text ∧ c = refinedToCard single r := by
  constructor
  · unfold processRefinedCards
    have h := fold_insertRefined_totalCards single
      (rc.filter fun c => hasClozeSub c.text) [] (by simp)
    simpa [totalCards] using h
  · unfold processRefinedCards
    intro e he c hc
    refine ?_
    have hgen : ∀ (cards : List RCard) (acc : List SlideEntry),
        (∀ e' ∈ acc, ∀ c' ∈ e'.cards,
          ∃ r ∈ rc, hasClozeSub r.text ∧ c' = refinedToCard single r) →
        (∀ r ∈ cards, r ∈ rc ∧ hasClozeSub r.text) →
        ∀ e' ∈ cards.foldl (fun a c' => insertRefined a c'.slide (refinedToCard single c'))
            acc, ∀ c' ∈ e'.cards,
          ∃ r ∈ rc, hasClozeSub r.text ∧ c' = refinedToCard single r := by
      intro cards
      induction cards with
      | nil => intro acc hacc _; exact hacc
      | cons x rest ih =>
          intro acc hacc hcards
          simp only [List.foldl_cons]
          refine ih _ ?_ fun r hr => hcards r (List.mem_cons_of_mem x hr)
          exact insertRefined_mem acc x.slide (refinedToCard single x) _ hacc
            ⟨x, (hcards x (List.mem_cons_self x rest)).1,
              (hcards x (List.mem_cons_self x rest)).2, rfl⟩
    exact hgen (rc.filter fun c' => hasClozeSub c'.text) [] (by simp)
      (fun r hr => by
        have := List.mem_filter.mp hr
        exact ⟨this.1, by simpa using this.2⟩) e he c hc

/-- C7 witness: the amended statement evaluated on one surviving and one
dropped card. -/
theorem C7_cloze_validation_amended_witness :
    totalCards (processRefinedCards true
        [⟨1, "{{c1::ok}}".data, [], [], []⟩, ⟨1, "bad".data, [], [], []⟩]) = 1 ∧
    ∃ r ∈ ([⟨1, "{{c1::ok}}".data, [], [], []⟩, ⟨1, "bad".data, [], [], []⟩] : List RCard),
      hasClozeSub r.text ∧
        refinedToCard true ⟨1, "{{c1::ok}}".data, [], [], []⟩ = refinedToCard true r := by
  have h := C7_cloze_validation_amended true
    [⟨1, "{{c1::ok}}".data, [], [], []⟩, ⟨1, "bad".data, [], [], []⟩]
  have hp : processRefinedCards true
      [⟨1, "{{c1::ok}}".data, [], [], []⟩, ⟨1, "bad".data, [], [], []⟩] =
      [⟨1, [refinedToCard true ⟨1, "{{c1::ok}}".data, [], [], []⟩]⟩] := by
    decide
  constructor
  · rw [h.1]
    decide
  · exact h.2 ⟨1, [refinedToCard true ⟨1, "{{c1::ok}}".data, [], [], []⟩]⟩
      (hp ▸ List.mem_singleton_self _)
      (refinedToCard true ⟨1, "{{c1::ok}}".data, [], [], []⟩)
      (List.mem_singleton_self _)

/-! ## Cloze-marker shapes

To reason about which strings begin with a cloze-opening marker
`{{c<digits>::` we track the remaining part of the marker as a small
automaton; `consumes sh s` says a marker suffix of shape `sh` is
completed within `s`. -/

/-- The suffixes of the marker pattern `{{c\d+::`. -/
inductive MarkerShape where
  | s0  -- `{{c`, digits, `::`
  | s1  -- `{c`, digits, `::`
  | s2  -- `c`, digits, `::`
  | s3  -- digits (at least one), `::`
  | s4  -- digits (possibly none), `::`
  | s5  -- final `:`
deriving DecidableEq

/-- Result of feeding one character to a marker shape. -/
inductive ShapeRes where
  | fail
  | done
  | cont (sh : MarkerShape)
deriving DecidableEq

/-- One step of the marker automaton. -/
def shapeStep : MarkerShape → Char → ShapeRes
  | .s0, c => if c = '{' then .cont .s1 else .fail
  | .s1, c => if c = '{' then .cont .s2 else .fail
  | .s2, c => if c = 'c' then .cont .s3 else .fail
  | .s3, c => if c.isDigit then .cont .s4 else .fail
  | .s4, c => if c.isDigit then .cont .s4 else if c = ':' then .cont .s5 else .fail
  | .s5, c => if c = ':' then .done else .fail

/-- Whether a marker suffix of shape `sh` is completed within `s`. -/
def consumes (sh : MarkerShape) : List Char → Bool
  | [] => false
  | c :: rest =>
      match shapeStep sh c with
      | .fail => false
      | .done => true
      | .cont sh' => consumes sh' rest

/-- After at least one digit, the automaton accepts exactly a digit run
followed by `::`. -/
theorem consumes_s4_iff : ∀ t : List Char,
    consumes .s4 t = [':', ':'].isPrefixOf (t.drop (t.takeWhile Char.isDigit).length) := by
  intro t
  induction t with
  | nil => simp [consumes, List.isPrefixOf]
  | cons c t' ih =>
      by_cases hd : c.isDigit
      · simp only [consumes, shapeStep, hd, ite_true, List.takeWhile_cons, List.length_cons,
          List.drop_succ_cons]
        rw [ih]
      · by_cases hc : c = ':'
        · subst hc
          simp only [consumes, shapeStep, hd, ite_false, ite_true, List.takeWhile_cons]
          simp only [show (':' : Char).isDigit = false from rfl, Bool.false_eq_true,
            ite_false, List.length_nil, List.drop_zero]
          match t' with
          | [] => simp [consumes, List.isPrefixOf]
          | c₂ :: t₂ =>
              by_cases hc₂ : c₂ = ':'
              · subst hc₂
                simp [consumes, shapeStep, List.isPrefixOf]
              · simp [consumes, shapeStep, hc₂, List.isPrefixOf, BEq.beq]
                intro h
                exact absurd h.symm hc₂
        · simp only [consumes, shapeStep, hd, Bool.false_eq_true, ite_false, hc]
          simp only [List.takeWhile_cons, hd, Bool.false_eq_true, ite_false,
            List.length_nil, List.drop_zero]
          match t' with
          | _ =>
            simp [List.isPrefixOf, BEq.beq]
            intro h
            exact absurd h.symm hc

/-- Shape `s3` accepts exactly a nonempty digit run followed by `::`. -/
theorem consumes_s3_iff : ∀ t : List Char,
    consumes .s3 t =
      (decide (t.takeWhile Char.isDigit ≠ []) &&
        [':', ':'].isPrefixOf (t.drop (t.takeWhile Char.isDigit).length)) := by
  intro t
  match t with
  | [] => simp [consumes]
  | c :: t' =>
      by_cases hd : c.isDigit
      · simp only [consumes, shapeStep, hd, ite_true, List.takeWhile_cons, List.length_cons,
          List.drop_succ_cons]
        rw [consumes_s4_iff]
        simp [hd]
      · simp [consumes, shapeStep, hd, List.takeWhile_cons]

/-- The regex matcher of `convert_to_single_card_format` succeeds exactly
when the marker automaton accepts from the start. -/
theorem clozeMatchLen_isSome_iff (s : List Char) :
    (clozeMatchLen s).isSome = consumes .s0 s := by
  match s with
  | [] => rfl
  | [c] =>
      show (none : Option Nat).isSome = _
      by_cases h1 : c = '{' <;> simp [consumes, shapeStep, h1]
  | [c, c₂] =>
      show (none : Option Nat).isSome = _
      by_cases h1 : c = '{' <;> by_cases h2 : c₂ = '{' <;>
        simp [consumes, shapeStep, h1, h2]
  | c :: c₂ :: c₃ :: t =>
      unfold clozeMatchLen
      by_cases h1 : c = '{'
      · by_cases h2 : c₂ = '{'
        · by_cases h3 : c₃ = 'c'
          · subst h1; subst h2; subst h3
            simp only [and_self, true_and, ite_true, consumes, shapeStep]
            rw [consumes_s3_iff]
            by_cases hds : t.takeWhile Char.isDigit ≠ []
            · by_cases hpre : ([':', ':'].isPrefixOf
                  (t.drop (t.takeWhile Char.isDigit).length)) = true
              · simp [hds, hpre]
              · simp [hds, Bool.eq_false_iff.mpr hpre]
            · simp only [ne_eq, not_not] at hds
              simp [hds]
          · simp [consumes, shapeStep, h1, h2, h3]
        · simp [consumes, shapeStep, h1, h2]
      · simp [consumes, shapeStep, h1]

/-- A marker (suffix) found at the head of the conversion's output was
already at the head of its input: the substituted blocks `{{c1::` can only
complete the full shape `s0`, which the matched input also completes. -/
theorem consumes_convertAux :
    ∀ (fuel : Nat) (sh : MarkerShape) (s : List Char), s.length ≤ fuel →
      consumes sh (convertAux fuel s) = true → consumes sh s = true := by
  intro fuel
  induction fuel with
  | zero =>
      intro sh s hs h
      match s, hs with
      | [], _ => exact h
  | succ fuel ih =>
      intro sh s hs h
      match s with
      | [] => exact h
      | c :: rest =>
          rw [List.length_cons, Nat.succ_le_succ_iff] at hs
          rw [show convertAux (fuel + 1) (c :: rest) =
              (match clozeMatchLen (c :: rest) with
               | some L => '{' :: '{' :: 'c' :: '1' :: ':' :: ':' ::
                   convertAux fuel (rest.drop (L - 1))
               | none => c :: convertAux fuel rest) from rfl] at h
          match hm : clozeMatchLen (c :: rest) with
          | some L =>
              rw [hm] at h
              match sh with
              | .s0 =>
                  have hsome : (clozeMatchLen (c :: rest)).isSome = true := by
                    rw [hm]; rfl
                  rw [clozeMatchLen_isSome_iff] at hsome
                  exact hsome
              | .s1 => simp [consumes, shapeStep] at h
              | .s2 => simp [consumes, shapeStep] at h
              | .s3 => simp [consumes, shapeStep] at h
              | .s4 => simp [consumes, shapeStep] at h
              | .s5 => simp [consumes, shapeStep] at h
          | none =>
              rw [hm] at h
              rw [show consumes sh (c :: convertAux fuel rest) =
                  (match shapeStep sh c with
                   | .fail => false
                   | .done => true
                   | .cont sh' => consumes sh' (convertAux fuel rest)) from rfl] at h
              rw [show consumes sh (c :: rest) =
                  (match shapeStep sh c with
                   | .fail => false
                   | .done => true
                   | .cont sh' => consumes sh' rest) from rfl]
              match hstep : shapeStep sh c with
              | .fail => rw [hstep] at h; exact h
              | .done => rfl
              | .cont sh' =>
                  rw [hstep] at h
                  exact ih sh' rest hs h

/-- The conversion never creates a fresh marker at a position where its
scan found none. -/
theorem clozeMatchLen_convertAux_none (fuel : Nat) (c : Char) (rest : List Char)
    (hfuel : rest.length ≤ fuel) (h : clozeMatchLen (c :: rest) = none) :
    clozeMatchLen (c :: convertAux fuel rest) = none := by
  by_contra hne
  have hsome : (clozeMatchLen (c :: convertAux fuel rest)).isSome = true := by
    match hx : clozeMatchLen (c :: convertAux fuel rest) with
    | some _ => rfl
    | none => exact absurd hx hne
  rw [clozeMatchLen_isSome_iff] at hsome
  rw [show consumes .s0 (c :: convertAux fuel rest) =
      (match shapeStep .s0 c with
       | .fail => false
       | .done => true
       | .cont sh' => consumes sh' (convertAux fuel rest)) from rfl] at hsome
  by_cases hc : c = '{'
  · rw [show shapeStep .s0 c = .cont .s1 by simp [shapeStep, hc]] at hsome
    have h1 : consumes .s1 rest = true := consumes_convertAux fuel .s1 rest hfuel hsome
    have h0 : consumes .s0 (c :: rest) = true := by
      rw [show consumes .s0 (c :: rest) =
          (match shapeStep .s0 c with
           | .fail => false
           | .done => true
           | .cont sh' => consumes sh' rest) from rfl]
      rw [show shapeStep .s0 c = .cont .s1 by simp [shapeStep, hc]]
      exact h1
    rw [← clozeMatchLen_isSome_iff, h] at h0
    exact Bool.noConfusion h0
  · rw [show shapeStep .s0 c = .fail by simp [shapeStep, hc]] at hsome
    exact Bool.noConfusion hsome

/-- Re-scanning the conversion's output changes nothing: substituted
markers re-match as `{{c1::` and are rewritten to themselves, and no new
match can appear elsewhere. -/
theorem convertAux_idempotent :
    ∀ (fuel : Nat) (s : List Char), s.length ≤ fuel →
      ∀ (fuel₂ : Nat), (convertAux fuel s).length ≤ fuel₂ →
        convertAux fuel₂ (convertAux fuel s) = convertAux fuel s := by
  intro fuel
  induction fuel with
  | zero =>
      intro s hs fuel₂ _
      match s, hs with
      | [], _ =>
          match fuel₂ with
          | 0 => rfl
          | _ + 1 => rfl
  | succ fuel ih =>
      intro s hs fuel₂ h₂
      match s with
      | [] =>
          match fuel₂ with
          | 0 => rfl
          | _ + 1 => rfl
      | c :: rest =>
          rw [List.length_cons, Nat.succ_le_succ_iff] at hs
          rw [show convertAux (fuel + 1) (c :: rest) =
              (match clozeMatchLen (c :: rest) with
               | some L => '{' :: '{' :: 'c' :: '1' :: ':' :: ':' ::
                   convertAux fuel (rest.drop (L - 1))
               | none => c :: convertAux fuel rest) from rfl] at h₂ ⊢
          match hm : clozeMatchLen (c :: rest) with
          | some L =>
              rw [hm] at h₂
              dsimp only at h₂ ⊢
              have hdroplen : (rest.drop (L - 1)).length ≤ fuel :=
                le_trans (by rw [List.length_drop]; omega) hs
              match fuel₂, h₂ with
              | 0, h₂ => exact absurd h₂ (by simp)
              | fuel₂ + 1, h₂ =>
                  have h₃ : (convertAux fuel (rest.drop (L - 1))).length ≤ fuel₂ := by
                    simp only [List.length_cons] at h₂
                    omega
                  rw [show convertAux (fuel₂ + 1)
                      ('{' :: '{' :: 'c' :: '1' :: ':' :: ':' ::
                        convertAux fuel (rest.drop (L - 1))) =
                      (match clozeMatchLen ('{' :: '{' :: 'c' :: '1' :: ':' :: ':' ::
                          convertAux fuel (rest.drop (L - 1))) with
                       | some L' => '{' :: '{' :: 'c' :: '1' :: ':' :: ':' ::
                           convertAux fuel₂
                             (('{' :: 'c' :: '1' :: ':' :: ':' ::
                               convertAux fuel (rest.drop (L - 1))).drop (L' - 1))
                       | none => '{' :: convertAux fuel₂
                           ('{' :: 'c' :: '1' :: ':' :: ':' ::
                             convertAux fuel (rest.drop (L - 1)))) from rfl]
                  have hblock : clozeMatchLen ('{' :: '{' :: 'c' :: '1' :: ':' :: ':' ::
                      convertAux fuel (rest.drop (L - 1))) = some 6 := by
                    unfold clozeMatchLen
                    simp [List.takeWhile, List.isPrefixOf]
                  rw [hblock]
                  dsimp only
                  rw [show (6 : Nat) - 1 = 5 from rfl, List.drop_succ_cons,
                    List.drop_succ_cons, List.drop_succ_cons, List.drop_succ_cons,
                    List.drop_succ_cons, List.drop_zero]
                  rw [ih (rest.drop (L - 1)) hdroplen fuel₂ h₃]
          | none =>
              rw [hm] at h₂
              dsimp only at h₂ ⊢
              match fuel₂, h₂ with
              | 0, h₂ => exact absurd h₂ (by simp)
              | fuel₂ + 1, h₂ =>
                  have h₃ : (convertAux fuel rest).length ≤ fuel₂ := by
                    simp only [List.length_cons] at h₂
                    omega
                  rw [show convertAux (fuel₂ + 1) (c :: convertAux fuel rest) =
                      (match clozeMatchLen (c :: convertAux fuel rest) with
                       | some L' => '{' :: '{' :: 'c' :: '1' :: ':' :: ':' ::
                           convertAux fuel₂ ((convertAux fuel rest).drop (L' - 1))
                       | none => c :: convertAux fuel₂ (convertAux fuel rest)) from rfl]
                  rw [clozeMatchLen_convertAux_none fuel c rest hs hm]
                  dsimp only
                  rw [ih rest hs fuel₂ h₃]

/-- C10: `convert_to_single_card_format` is idempotent, and the identity
when `single_card_mode` is off. -/
theorem C10_convert_idempotent (single_card_mode : Bool) (s : List Char) :
    convert_to_single_card_format single_card_mode
        (convert_to_single_card_format single_card_mode s) =
      convert_to_single_card_format single_card_mode s ∧
    convert_to_single_card_format false s = s := by
  constructor
  · match single_card_mode with
    | false => rfl
    | true =>
        show convertAux (convertAux s.length s).length (convertAux s.length s) =
          convertAux s.length s
        exact convertAux_idempotent s.length s (le_refl _) _ (le_refl _)
  · rfl

/-! ## Claim C8: all cloze group indices are `c1` in single-card mode -/

/-- `s` begins with the cloze-opening marker `{{c<ds>::`. -/
def markerAt (ds : List Char) (s : List Char) : Prop :=
  ds ≠ [] ∧ (∀ c ∈ ds, c.isDigit = true) ∧
    ('{' :: '{' :: 'c' :: (ds ++ [':', ':'])) <+: s

instance (ds s : List Char) : Decidable (markerAt ds s) := by
  unfold markerAt
  infer_instance

/-- Every cloze-opening marker anywhere in `s` carries group index 1. -/
def AllC1 (s : List Char) : Prop :=
  ∀ ds t, t <:+ s → markerAt ds t → ds = ['1']

/-- A digit run followed by `::` drives shape `s4` to completion. -/
theorem consumes_s4_of_prefix :
    ∀ (ds v : List Char), (∀ c ∈ ds, c.isDigit = true) →
      (ds ++ [':', ':']) <+: v → consumes .s4 v = true := by
  intro ds
  induction ds with
  | nil =>
      intro v _ hpre
      obtain ⟨w, hw⟩ := hpre
      rw [List.nil_append] at hw
      subst hw
      rfl
  | cons d ds ih =>
      intro v hd hpre
      obtain ⟨w, hw⟩ := hpre
      rw [List.cons_append] at hw
      subst hw
      have hdig : d.isDigit = true := hd d (List.mem_cons_self d ds)
      rw [List.cons_append]
      rw [show consumes .s4 (d :: (ds ++ [':', ':'] ++ w)) =
          (match shapeStep .s4 d with
           | .fail => false
           | .done => true
           | .cont sh' => consumes sh' (ds ++ [':', ':'] ++ w)) from rfl]
      rw [show shapeStep .s4 d = .cont .s4 by simp [shapeStep, hdig]]
      exact ih (ds ++ [':', ':'] ++ w) (fun c hc => hd c (List.mem_cons_of_mem d hc))
        ⟨w, by simp⟩

/-- A marker prefix drives the automaton to completion. -/
theorem markerAt_consumes (ds u : List Char) (h : markerAt ds u) :
    consumes .s0 u = true := by
  obtain ⟨hne, hdig, hpre⟩ := h
  obtain ⟨w, hw⟩ := hpre
  subst hw
  match ds, hne with
  | d :: ds', _ =>
      have hd : d.isDigit = true := hdig d (List.mem_cons_self d ds')
      show consumes .s3 (((d :: ds') ++ [':', ':']) ++ w) = true
      rw [List.cons_append, List.cons_append]
      rw [show consumes .s3 (d :: (ds' ++ [':', ':'] ++ w)) =
          (match shapeStep .s3 d with
           | .fail => false
           | .done => true
           | .cont sh' => consumes sh' (ds' ++ [':', ':'] ++ w)) from rfl]
      rw [show shapeStep .s3 d = .cont .s4 by simp [shapeStep, hd]]
      exact consumes_s4_of_prefix ds' (ds' ++ [':', ':'] ++ w)
        (fun c hc => hdig c (List.mem_cons_of_mem d hc)) ⟨w, by simp⟩

/-- A marker at the head of the substituted block `{{c1::` must be
`{{c1::` itself. -/
theorem markerAt_block (ds w : List Char)
    (hm : markerAt ds ('{' :: '{' :: 'c' :: '1' :: ':' :: ':' :: w)) : ds = ['1'] := by
  obtain ⟨hne, hdig, hpre⟩ := hm
  rw [List.cons_prefix_cons] at hpre
  rw [List.cons_prefix_cons] at hpre
  rw [List.cons_prefix_cons] at hpre
  have hpre' : ds ++ [':', ':'] <+: '1' :: ':' :: ':' :: w := hpre.2.2.2
  match ds, hne with
  | d :: ds', _ =>
      rw [List.cons_append, List.cons_prefix_cons] at hpre'
      obtain ⟨rfl, hpre''⟩ := hpre'
      match ds' with
      | [] => rfl
      | d' :: ds'' =>
          rw [List.cons_append, List.cons_prefix_cons] at hpre''
          have hd' : d'.isDigit = true :=
            hdig d' (List.mem_cons_of_mem _ (List.mem_cons_self d' ds''))
          rw [hpre''.1] at hd'
          exact absurd hd' (by decide)

/-- The single-card conversion leaves only group index 1: every marker in
the output of the scan is `{{c1::`. -/
theorem allC1_convertAux :
    ∀ (fuel : Nat) (s : List Char), s.length ≤ fuel → AllC1 (convertAux fuel s) := by
  intro fuel
  induction fuel with
  | zero =>
      intro s hs ds t ht hm
      match s, hs with
      | [], _ =>
          rw [List.suffix_nil.mp ht] at hm
          exact absurd (List.prefix_nil.mp hm.2.2) (by simp)
  | succ fuel ih =>
      intro s hs ds t ht hm
      match s with
      | [] =>
          rw [List.suffix_nil.mp ht] at hm
          exact absurd (List.prefix_nil.mp hm.2.2) (by simp)
      | c :: rest =>
          rw [List.length_cons, Nat.succ_le_succ_iff] at hs
          rw [show convertAux (fuel + 1) (c :: rest) =
              (match clozeMatchLen (c :: rest) with
               | some L => '{' :: '{' :: 'c' :: '1' :: ':' :: ':' ::
                   convertAux fuel (rest.drop (L - 1))
               | none => c :: convertAux fuel rest) from rfl] at ht
          revert ht
          match hmatch : clozeMatchLen (c :: rest) with
          | some L =>
              intro ht
              have hdroplen : (rest.drop (L - 1)).length ≤ fuel :=
                le_trans (by rw [List.length_drop]; omega) hs
              rw [List.suffix_cons_iff] at ht
              rcases ht with rfl | ht
              · exact markerAt_block ds _ hm
              · rw [List.suffix_cons_iff] at ht
                rcases ht with rfl | ht
                · have := markerAt_consumes ds _ hm
                  simp [consumes, shapeStep] at this
                · rw [List.suffix_cons_iff] at ht
                  rcases ht with rfl | ht
                  · have := markerAt_consumes ds _ hm
                    simp [consumes, shapeStep] at this
                  · rw [List.suffix_cons_iff] at ht
                    rcases ht with rfl | ht
                    · have := markerAt_consumes ds _ hm
                      simp [consumes, shapeStep] at this
                    · rw [List.suffix_cons_iff] at ht
                      rcases ht with rfl | ht
                      · have := markerAt_consumes ds _ hm
                        simp [consumes, shapeStep] at this
                      · rw [List.suffix_cons_iff] at ht
                        rcases ht with rfl | ht
                        · have := markerAt_consumes ds _ hm
                          simp [consumes, shapeStep] at this
                        · exact ih (rest.drop (L - 1)) hdroplen ds t ht hm
          | none =>
              intro ht
              rw [List.suffix_cons_iff] at ht
              rcases ht with rfl | ht
              · have hcons := markerAt_consumes ds _ hm
                rw [← clozeMatchLen_isSome_iff,
                  clozeMatchLen_convertAux_none fuel c rest hs hmatch] at hcons
                exact Bool.noConfusion hcons
              · exact ih rest hs ds t ht hm

/-- A prefix of an append is a prefix of the left part or extends it. -/
theorem prefix_append_cases {α : Type} (a : List α) :
    ∀ (w b : List α), w <+: a ++ b →
      w <+: a ∨ ∃ w', w = a ++ w' ∧ w' <+: b := by
  induction a with
  | nil => intro w b h; exact Or.inr ⟨w, rfl, by simpa using h⟩
  | cons x a ih =>
      intro w b h
      match w with
      | [] => exact Or.inl (List.nil_prefix)
      | y :: w' =>
          rw [List.cons_append, List.cons_prefix_cons] at h
          obtain ⟨rfl, h'⟩ := h
          rcases ih w' b h' with h'' | ⟨w'', rfl, h''⟩
          · exact Or.inl (List.cons_prefix_cons.mpr ⟨rfl, h''⟩)
          · exact Or.inr ⟨w'', rfl, h''⟩

/-- A suffix of an append is a suffix of the right part or a nonempty
suffix of the left part glued to the whole right part. -/
theorem suffix_append_cases {α : Type} (a : List α) :
    ∀ (t b : List α), t <:+ a ++ b →
      t <:+ b ∨ ∃ a', a' <:+ a ∧ a' ≠ [] ∧ t = a' ++ b := by
  induction a with
  | nil => intro t b h; exact Or.inl (by simpa using h)
  | cons x a ih =>
      intro t b h
      rw [List.cons_append, List.suffix_cons_iff] at h
      rcases h with rfl | h
      · exact Or.inr ⟨x :: a, List.suffix_refl _, by simp, by simp⟩
      · rcases ih t b h with h' | ⟨a', ha', hne, rfl⟩
        · exact Or.inl h'
        · exact Or.inr ⟨a', ha'.trans (List.suffix_cons x a), hne, rfl⟩

/-- Prepending on the left preserves the prefix relation. -/
theorem prefix_append_left {α : Type} (a : List α) {l₁ l₂ : List α}
    (h : l₁ <+: l₂) : a ++ l₁ <+: a ++ l₂ := by
  obtain ⟨t, rfl⟩ := h
  exact ⟨t, by rw [List.append_assoc]⟩

/-- Appending on the right preserves the suffix relation. -/
theorem suffix_append_right {α : Type} (t : List α) {l₁ l₂ : List α}
    (h : l₁ <:+ l₂) : l₁ ++ t <:+ l₂ ++ t := by
  obtain ⟨p, rfl⟩ := h
  exact ⟨p, by rw [List.append_assoc]⟩

/-- A `<`-free prefix of a bold pass's output (at any scan point) is a
prefix of the pass's remaining input: inserted `<b>`/`</b>` tags start
with `<`, and matched segments are copied in place. -/
theorem prefix_boldAux (m : Matcher) (orig : List Char)
    (hL : ∀ s' p L, m s' p = some L → 1 ≤ L) :
    ∀ (fuel : Nat) (s : List Char) (i : Nat) (w : List Char), s.length ≤ fuel →
      '<' ∉ w → w <+: boldAux m orig fuel s i → w <+: s := by
  intro fuel
  induction fuel with
  | zero =>
      intro s i w hs _ h
      match s, hs with
      | [], _ => exact h
  | succ fuel ih =>
      intro s i w hs hw h
      match s with
      | [] => exact h
      | c :: rest =>
          rw [List.length_cons, Nat.succ_le_succ_iff] at hs
          rw [show boldAux m orig (fuel + 1) (c :: rest) i =
              (match m (c :: rest) (if i = 0 then none else orig.get? (i - 1)) with
               | some L =>
                   (if countPairs '}' (orig.take i) < countPairs '{' (orig.take i) then
                     (c :: rest).take L
                    else '<' :: 'b' :: '>' :: ((c :: rest).take L ++ ['<', '/', 'b', '>'])) ++
                     boldAux m orig fuel (rest.drop (L - 1)) (i + L)
               | none => c :: boldAux m orig fuel rest (i + 1)) from rfl] at h
          match hm : m (c :: rest) (if i = 0 then none else orig.get? (i - 1)) with
          | some L =>
              rw [hm] at h
              dsimp only at h
              have hL1 : 1 ≤ L := hL _ _ _ hm
              have hdroplen : (rest.drop (L - 1)).length ≤ fuel :=
                le_trans (by rw [List.length_drop]; omega) hs
              have hsegdrop : (c :: rest).take L ++ rest.drop (L - 1) = c :: rest := by
                match L, hL1 with
                | L' + 1, _ =>
                    rw [List.take_succ_cons, Nat.add_sub_cancel, List.cons_append,
                      List.take_append_drop]
              by_cases hguard : countPairs '}' (orig.take i) < countPairs '{' (orig.take i)
              · rw [if_pos hguard] at h
                rcases prefix_append_cases _ _ _ h with h' | ⟨w', rfl, h'⟩
                · exact h'.trans (List.take_prefix L (c :: rest))
                · have h'' := ih (rest.drop (L - 1)) (i + L) w' hdroplen
                    (fun hc => hw (List.mem_append_right _ hc)) h'
                  nth_rewrite 2 [← hsegdrop]
                  exact prefix_append_left _ h''
              · rw [if_neg hguard] at h
                match w with
                | [] => exact List.nil_prefix
                | wc :: w' =>
                    rw [List.cons_append, List.cons_prefix_cons] at h
                    exact absurd (h.1 ▸ List.mem_cons_self wc w') hw
          | none =>
              rw [hm] at h
              dsimp only at h
              match w with
              | [] => exact List.nil_prefix
              | wc :: w' =>
                  rw [List.cons_prefix_cons] at h
                  obtain ⟨rfl, h'⟩ := h
                  have h'' := ih rest (i + 1) w' hs
                    (fun hc => hw (List.mem_cons_of_mem _ hc)) h'
                  exact List.cons_prefix_cons.mpr ⟨rfl, h''⟩

/-- The marker pattern `{{c<ds>::` contains no `<`. -/
theorem marker_no_lt (ds : List Char) (hdig : ∀ c ∈ ds, c.isDigit = true) :
    '<' ∉ '{' :: '{' :: 'c' :: (ds ++ [':', ':']) := by
  intro h
  rcases List.mem_cons.mp h with h | h
  · exact absurd h (by decide)
  rcases List.mem_cons.mp h with h | h
  · exact absurd h (by decide)
  rcases List.mem_cons.mp h with h | h
  · exact absurd h (by decide)
  rcases List.mem_append.mp h with h | h
  · have := hdig '<' h
    exact absurd this (by decide)
  · rcases List.mem_cons.mp h with h | h
    · exact absurd h (by decide)
    · rcases List.mem_cons.mp h with h | h
      · exact absurd h (by decide)
      · exact absurd h (List.not_mem_nil '<')

/-- If every marker of `s` has index 1, so has every marker of a suffix
of `s`. -/
theorem AllC1.of_suffix {s t : List Char} (h : AllC1 s) (hts : t <:+ s) : AllC1 t :=
  fun ds u hu hm => h ds u (hu.trans hts) hm

/-- Bold annotation preserves the all-`c1` marker property: tags are
inserted only outside matches, matched segments are kept verbatim, and a
marker never overlaps an inserted tag. -/
theorem allC1_boldAux (m : Matcher) (orig : List Char)
    (hL : ∀ s' p L, m s' p = some L → 1 ≤ L) :
    ∀ (fuel : Nat) (s : List Char) (i : Nat), s.length ≤ fuel → AllC1 s →
      AllC1 (boldAux m orig fuel s i) := by
  intro fuel
  induction fuel with
  | zero =>
      intro s i hs _ ds t ht hm
      match s, hs with
      | [], _ =>
          rw [show boldAux m orig 0 [] i = [] from rfl] at ht
          rw [List.suffix_nil.mp ht] at hm
          exact absurd (List.prefix_nil.mp hm.2.2) (by simp)
  | succ fuel ih =>
      intro s i hs hall ds t ht hm
      match s with
      | [] =>
          rw [show boldAux m orig (fuel + 1) [] i = [] from rfl] at ht
          rw [List.suffix_nil.mp ht] at hm
          exact absurd (List.prefix_nil.mp hm.2.2) (by simp)
      | c :: rest =>
          rw [List.length_cons, Nat.succ_le_succ_iff] at hs
          rw [show boldAux m orig (fuel + 1) (c :: rest) i =
              (match m (c :: rest) (if i = 0 then none else orig.get? (i - 1)) with
               | some L =>
                   (if countPairs '}' (orig.take i) < countPairs '{' (orig.take i) then
                     (c :: rest).take L
                    else '<' :: 'b' :: '>' :: ((c :: rest).take L ++ ['<', '/', 'b', '>'])) ++
                     boldAux m orig fuel (rest.drop (L - 1)) (i + L)
               | none => c :: boldAux m orig fuel rest (i + 1)) from rfl] at ht
          revert ht
          match hmatch : m (c :: rest) (if i = 0 then none else orig.get? (i - 1)) with
          | some L =>
              intro ht
              dsimp only at ht
              have hL1 : 1 ≤ L := hL _ _ _ hmatch
              have hdroplen : (rest.drop (L - 1)).length ≤ fuel :=
                le_trans (by rw [List.length_drop]; omega) hs
              have hsegdrop : (c :: rest).take L ++ rest.drop (L - 1) = c :: rest := by
                match L, hL1 with
                | L' + 1, _ =>
                    rw [List.take_succ_cons, Nat.add_sub_cancel, List.cons_append,
                      List.take_append_drop]
              have hallrec : AllC1 (rest.drop (L - 1)) :=
                hall.of_suffix ((List.drop_suffix (L - 1) rest).trans (List.suffix_cons c rest))
              have hrecIH : AllC1 (boldAux m orig fuel (rest.drop (L - 1)) (i + L)) :=
                ih _ _ hdroplen hallrec
              have hseg_case : ∀ a', a' <:+ (c :: rest).take L →
                  ('{' :: '{' :: 'c' :: (ds ++ [':', ':'])) <+: a' ++ rest.drop (L - 1) →
                  ds ≠ [] → (∀ x ∈ ds, x.isDigit = true) → ds = ['1'] := by
                intro a' ha' hp hdsne hdig
                refine hall ds (a' ++ rest.drop (L - 1)) ?_ ⟨hdsne, hdig, hp⟩
                exact hsegdrop ▸ suffix_append_right (rest.drop (L - 1)) ha'
              by_cases hguard : countPairs '}' (orig.take i) < countPairs '{' (orig.take i)
              · rw [if_pos hguard] at ht
                rcases suffix_append_cases _ t _ ht with ht' | ⟨a', ha', hne, rfl⟩
                · exact hrecIH ds t ht' hm
                · obtain ⟨hdsne, hdig, hpre⟩ := hm
                  rcases prefix_append_cases a' _ _ hpre with hp | ⟨w', hw'eq, hw'⟩
                  · exact hseg_case a' ha' (hp.trans (List.prefix_append a' _)) hdsne hdig
                  · have hw'lt : '<' ∉ w' := fun hc =>
                      marker_no_lt ds hdig (hw'eq ▸ List.mem_append_right a' hc)
                    have hw's : w' <+: rest.drop (L - 1) :=
                      prefix_boldAux m orig hL fuel _ _ w' hdroplen hw'lt hw'
                    refine hseg_case a' ha' ?_ hdsne hdig
                    rw [hw'eq]
                    exact prefix_append_left a' hw's
              · rw [if_neg hguard] at ht
                rw [List.cons_append, List.cons_append, List.cons_append] at ht
                rw [List.suffix_cons_iff] at ht
                rcases ht with rfl | ht
                · obtain ⟨-, -, hpre⟩ := hm
                  rw [List.cons_prefix_cons] at hpre
                  exact absurd hpre.1 (by decide)
                rw [List.suffix_cons_iff] at ht
                rcases ht with rfl | ht
                · obtain ⟨-, -, hpre⟩ := hm
                  rw [List.cons_prefix_cons] at hpre
                  exact absurd hpre.1 (by decide)
                rw [List.suffix_cons_iff] at ht
                rcases ht with rfl | ht
                · obtain ⟨-, -, hpre⟩ := hm
                  rw [List.cons_prefix_cons] at hpre
                  exact absurd hpre.1 (by decide)
                rw [List.append_assoc] at ht
                rcases suffix_append_cases _ t _ ht with ht' | ⟨a', ha', hne, rfl⟩
                · rw [List.cons_append, List.suffix_cons_iff] at ht'
                  rcases ht' with rfl | ht'
                  · obtain ⟨-, -, hpre⟩ := hm
                    rw [List.cons_prefix_cons] at hpre
                    exact absurd hpre.1 (by decide)
                  rw [List.cons_append, List.suffix_cons_iff] at ht'
                  rcases ht' with rfl | ht'
                  · obtain ⟨-, -, hpre⟩ := hm
                    rw [List.cons_prefix_cons] at hpre
                    exact absurd hpre.1 (by decide)
                  rw [List.cons_append, List.suffix_cons_iff] at ht'
                  rcases ht' with rfl | ht'
                  · obtain ⟨-, -, hpre⟩ := hm
                    rw [List.cons_prefix_cons] at hpre
                    exact absurd hpre.1 (by decide)
                  rw [List.cons_append, List.suffix_cons_iff] at ht'
                  rcases ht' with rfl | ht'
                  · obtain ⟨-, -, hpre⟩ := hm
                    rw [List.cons_prefix_cons] at hpre
                    exact absurd hpre.1 (by decide)
                  rw [List.nil_append] at ht'
                  exact hrecIH ds t ht' hm
                · obtain ⟨hdsne, hdig, hpre⟩ := hm
                  rcases prefix_append_cases a' _ _ hpre with hp | ⟨w', hw'eq, hw'⟩
                  · exact hseg_case a' ha' (hp.trans (List.prefix_append a' _)) hdsne hdig
                  · match w' with
                    | [] =>
                        rw [List.append_nil] at hw'eq
                        refine hseg_case a' ha' ?_ hdsne hdig
                        rw [hw'eq]
                        exact List.prefix_append a' _
                    | wc :: w'' =>
                        rw [List.cons_append, List.cons_prefix_cons] at hw'
                        refine absurd ?_ (marker_no_lt ds hdig)
                        rw [hw'eq, hw'.1]
                        exact List.mem_append_right a' (List.mem_cons_self '<' w'')
          | none =>
              intro ht
              dsimp only at ht
              rw [List.suffix_cons_iff] at ht
              rcases ht with rfl | ht
              · obtain ⟨hdsne, hdig, hpre⟩ := hm
                rw [List.cons_prefix_cons] at hpre
                obtain ⟨hc, hpre'⟩ := hpre
                have hlt : '<' ∉ '{' :: 'c' :: (ds ++ [':', ':']) := fun hc' =>
                  marker_no_lt ds hdig (List.mem_cons_of_mem _ hc')
                have h2 := prefix_boldAux m orig hL fuel rest (i + 1)
                  ('{' :: 'c' :: (ds ++ [':', ':'])) hs hlt hpre'
                exact hall ds (c :: rest) (List.suffix_refl _)
                  ⟨hdsne, hdig, List.cons_prefix_cons.mpr ⟨hc, h2⟩⟩
              · exact ih rest (i + 1) hs (hall.of_suffix (List.suffix_cons c rest)) ds t ht hm

/-- A word-alternation matcher over nonempty words only reports positive
lengths. -/
theorem wordsMatchAt_pos (ws : List (List Char)) (hws : ∀ w ∈ ws, w ≠ []) :
    ∀ (s : List Char) (p : Option Char) (L : Nat),
      wordsMatchAt ws s p = some L → 1 ≤ L := by
  intro s p L h
  unfold wordsMatchAt at h
  by_cases hb : isBoundary p s.head? = true
  · rw [if_pos hb] at h
    match hf : ws.find? fun w =>
        ciPrefix w s && isBoundary ((s.take w.length).getLast?) ((s.drop w.length).head?) with
    | some w =>
        rw [hf] at h
        simp only [Option.map_some'] at h
        have hw : w ∈ ws := List.mem_of_find?_eq_some hf
        have : w ≠ [] := hws w hw
        match w, this with
        | _ :: _, _ =>
            rw [← Option.some_inj.mp h]
            simp
    | none => rw [hf] at h; exact absurd h (by simp)
  · rw [if_neg hb] at h
    exact absurd h (by simp)

/-- The dose-unit matcher only reports positive lengths (the digit run is
nonempty). -/
theorem unitsMatchAt_pos :
    ∀ (s : List Char) (p : Option Char) (L : Nat),
      unitsMatchAt s p = some L → 1 ≤ L := by
  intro s p L h
  unfold unitsMatchAt at h
  by_cases hb : isBoundary p s.head? = true
  · rw [if_pos hb] at h
    dsimp only at h
    by_cases hds : s.takeWhile Char.isDigit = []
    · rw [if_pos hds] at h
      exact absurd h (by simp)
    · rw [if_neg hds] at h
      obtain ⟨u, hu, hL⟩ := Option.map_eq_some'.mp h
      have hlen : (s.takeWhile Char.isDigit).length ≠ 0 :=
        fun hz => hds (List.length_eq_zero.mp hz)
      omega
  · rw [if_neg hb] at h
    exact absurd h (by simp)

/-- Bold annotation preserves the all-`c1` property. -/
theorem allC1_add_bold_formatting (s : List Char) (h : AllC1 s) :
    AllC1 (add_bold_formatting s) := by
  unfold add_bold_formatting boldPass
  have h1 : ∀ w ∈ keyWords1, w ≠ [] := by decide
  have h2 : ∀ w ∈ keyWords2, w ≠ [] := by decide
  exact allC1_boldAux unitsMatchAt _ unitsMatchAt_pos _ _ 0 (le_refl _)
    (allC1_boldAux (wordsMatchAt keyWords2) _ (wordsMatchAt_pos keyWords2 h2) _ _ 0
      (le_refl _)
      (allC1_boldAux (wordsMatchAt keyWords1) _ (wordsMatchAt_pos keyWords1 h1) _ _ 0
        (le_refl _) h))

/-- C8: in single-card mode the conversion rewrites every cloze group
index to 1, and every card text in the reconciled batch output carries
only `{{c1::` markers. -/
theorem C8_single_card_group_index (s : List Char) (n : Nat)
    (parsed : List SlideEntry) :
    AllC1 (convert_to_single_card_format true s) ∧
    ∀ e ∈ reconcileBatch true n parsed, ∀ c ∈ e.cards, AllC1 c.text := by
  constructor
  · exact allC1_convertAux s.length s (le_refl _)
  · intro e he c hc
    unfold reconcileBatch at he
    obtain ⟨e', _, rfl⟩ := List.mem_map.mp he
    obtain ⟨c', _, rfl⟩ := List.mem_map.mp hc
    show AllC1 (add_bold_formatting (convert_to_single_card_format true c'.text))
    exact allC1_add_bold_formatting _ (allC1_convertAux c'.text.length c'.text (le_refl _))

/-- C8 witness: the marker in the converted text `{{c2::x}}` has been
rewritten to index 1. -/
theorem C8_single_card_group_index_witness :
    (convert_to_single_card_format true "{{c2::x}}".data <:+
        convert_to_single_card_format true "{{c2::x}}".data) ∧
    markerAt ['1'] (convert_to_single_card_format true "{{c2::x}}".data) ∧
    (['1'] : List Char) = ['1'] :=
  ⟨List.suffix_refl _, by decide,
   (C8_single_card_group_index "{{c2::x}}".data 0 []).1 ['1'] _
     (List.suffix_refl _) (by decide)⟩

/-! ## Claim C9: bold annotation never modifies cloze interiors

A character position is inside a cloze when the prefix before it has more
(non-overlapping) `{{` than `}}` occurrences — exactly the test of
`replace_if_not_in_cloze`.  We track both counts with a left-to-right
automaton and show the inside characters are untouched. -/

/-- State of a single two-character pair counter: the count so far and
whether the previous character was an unpaired `c`. -/
def pairStep (c : Char) (st : Nat × Bool) (ch : Char) : Nat × Bool :=
  if ch = c then (if st.2 then (st.1 + 1, false) else (st.1, true))
  else (st.1, false)

/-- Unfolding equation of `countPairs` on two leading characters. -/
theorem countPairs_cons₂ (c a b : Char) (t : List Char) :
    countPairs c (a :: b :: t) =
      if a = c ∧ b = c then countPairs c t + 1 else countPairs c (b :: t) := rfl

/-- Running the pair automaton from a clean state counts exactly
`countPairs`. -/
theorem pairStep_run (c : Char) :
    ∀ (l : List Char) (cnt : Nat),
      (l.foldl (pairStep c) (cnt, false)).1 = cnt + countPairs c l
  | [], cnt => by simp [countPairs]
  | [a], cnt => by by_cases h : a = c <;> simp [countPairs, pairStep, h]
  | a :: b :: t, cnt => by
      rw [countPairs_cons₂]
      by_cases ha : a = c
      · by_cases hb : b = c
        · rw [if_pos ⟨ha, hb⟩]
          have ih := pairStep_run c t (cnt + 1)
          rw [List.foldl_cons, List.foldl_cons]
          rw [show pairStep c (pairStep c (cnt, false) a) b = (cnt + 1, false) by
            simp [pairStep, ha, hb]]
          rw [ih]
          omega
        · rw [if_neg (fun hx => hb hx.2)]
          have ih := pairStep_run c (b :: t) cnt
          rw [List.foldl_cons, List.foldl_cons]
          rw [List.foldl_cons] at ih
          rw [show pairStep c (pairStep c (cnt, false) a) b = pairStep c (cnt, false) b by
            simp [pairStep, ha, hb]]
          exact ih
      · rw [if_neg (fun hx => ha hx.1)]
        have ih := pairStep_run c (b :: t) cnt
        rw [List.foldl_cons]
        rw [show pairStep c (cnt, false) a = (cnt, false) by simp [pairStep, ha]]
        exact ih

/-- Combined brace-counting state: the `{{`-automaton and the
`}}`-automaton. -/
def braceStep (st : (Nat × Bool) × (Nat × Bool)) (ch : Char) :
    (Nat × Bool) × (Nat × Bool) :=
  (pairStep '{' st.1 ch, pairStep '}' st.2 ch)

/-- The combined automaton runs both components independently. -/
theorem braceStep_run : ∀ (l : List Char) (st : (Nat × Bool) × (Nat × Bool)),
    l.foldl braceStep st = (l.foldl (pairStep '{') st.1, l.foldl (pairStep '}') st.2)
  | [], st => rfl
  | ch :: t, st => by
      rw [List.foldl_cons, List.foldl_cons, List.foldl_cons, braceStep_run t]
      rfl

/-- The characters of `s` at inside-cloze positions (prefix `{{` count
exceeding the `}}` count), scanning from state `st`. -/
def insideAux (st : (Nat × Bool) × (Nat × Bool)) : List Char → List Char
  | [] => []
  | ch :: rest =>
      (if st.2.1 < st.1.1 then [ch] else []) ++ insideAux (braceStep st ch) rest

/-- The inside-cloze characters of `s`. -/
def insideChars (s : List Char) : List Char :=
  insideAux ((0, false), (0, false)) s

/-- The automaton state after the first `i` characters of `orig`. -/
def stateAt (orig : List Char) (i : Nat) : (Nat × Bool) × (Nat × Bool) :=
  (orig.take i).foldl braceStep ((0, false), (0, false))

/-- The guard of `replace_if_not_in_cloze` agrees with the automaton. -/
theorem guard_iff_stateAt (orig : List Char) (i : Nat) :
    (countPairs '}' (orig.take i) < countPairs '{' (orig.take i)) ↔
      (stateAt orig i).2.1 < (stateAt orig i).1.1 := by
  unfold stateAt
  rw [braceStep_run]
  show _ ↔ ((orig.take i).foldl (pairStep '}') (0, false)).1 <
    ((orig.take i).foldl (pairStep '{') (0, false)).1
  rw [pairStep_run, pairStep_run]
  simp

/-- `insideAux` splits over appends. -/
theorem insideAux_append (st : (Nat × Bool) × (Nat × Bool)) :
    ∀ (a b : List Char),
      insideAux st (a ++ b) = insideAux st a ++ insideAux (a.foldl braceStep st) b := by
  intro a
  induction a generalizing st with
  | nil => intro b; simp [insideAux]
  | cons ch t ih =>
      intro b
      rw [List.cons_append]
      show (if st.2.1 < st.1.1 then [ch] else []) ++ insideAux (braceStep st ch) (t ++ b) =
        ((if st.2.1 < st.1.1 then [ch] else []) ++ insideAux (braceStep st ch) t) ++
          insideAux ((ch :: t).foldl braceStep st) b
      rw [ih (braceStep st ch) b, List.foldl_cons, List.append_assoc]

/-- A list without brace characters. -/
def braceFree (l : List Char) : Prop :=
  ∀ ch ∈ l, ch ≠ '{' ∧ ch ≠ '}'

/-- Stepping on a non-brace character keeps both counts and clears both
pending flags. -/
theorem braceStep_of_ne (st : (Nat × Bool) × (Nat × Bool)) (ch : Char)
    (h1 : ch ≠ '{') (h2 : ch ≠ '}') :
    braceStep st ch = ((st.1.1, false), (st.2.1, false)) := by
  simp [braceStep, pairStep, h1, h2]

/-- Folding over a nonempty brace-free list keeps the counts and clears
the pending flags. -/
theorem foldl_braceFree : ∀ (l : List Char) (st : (Nat × Bool) × (Nat × Bool)),
    braceFree l → l ≠ [] →
      l.foldl braceStep st = ((st.1.1, false), (st.2.1, false))
  | [], _, _, hne => absurd rfl hne
  | [ch], st, hbf, _ => by
      have h := hbf ch (List.mem_cons_self ch [])
      rw [List.foldl_cons, List.foldl_nil, braceStep_of_ne st ch h.1 h.2]
  | ch :: ch₂ :: t, st, hbf, _ => by
      have h := hbf ch (List.mem_cons_self ch (ch₂ :: t))
      have hrec := foldl_braceFree (ch₂ :: t) (braceStep st ch)
        (fun x hx => hbf x (List.mem_cons_of_mem ch hx)) (by simp)
      rw [List.foldl_cons, hrec, braceStep_of_ne st ch h.1 h.2]

/-- A brace-free stretch scanned from an outside state contributes no
inside characters. -/
theorem insideAux_braceFree : ∀ (l : List Char) (st : (Nat × Bool) × (Nat × Bool)),
    braceFree l → ¬(st.2.1 < st.1.1) → insideAux st l = []
  | [], _, _, _ => rfl
  | ch :: t, st, hbf, hout => by
      have h := hbf ch (List.mem_cons_self ch t)
      rw [show insideAux st (ch :: t) =
          (if st.2.1 < st.1.1 then [ch] else []) ++ insideAux (braceStep st ch) t
        from rfl]
      rw [if_neg hout, List.nil_append, braceStep_of_ne st ch h.1 h.2]
      exact insideAux_braceFree t _ (fun x hx => hbf x (List.mem_cons_of_mem ch hx)) hout

/-- Characters matched case-insensitively come from the word, up to
lower-casing. -/
theorem ciPrefix_chars : ∀ (w s : List Char), ciPrefix w s = true →
    ∀ ch ∈ s.take w.length, ∃ wc ∈ w, ch.toLower = wc.toLower
  | [], _, _, ch, hch => by simp at hch
  | _ :: _, [], h, _, _ => by simp [ciPrefix] at h
  | wc :: ws, sc :: ss, h, ch, hch => by
      rw [show ciPrefix (wc :: ws) (sc :: ss) = (charCI sc wc && ciPrefix ws ss)
        from rfl, Bool.and_eq_true] at h
      rw [List.length_cons, List.take_succ_cons] at hch
      rcases List.mem_cons.mp hch with rfl | hch
      · exact ⟨wc, List.mem_cons_self wc ws, by simpa [charCI] using h.1⟩
      · obtain ⟨wc', hwc', he⟩ := ciPrefix_chars ws ss h.2 ch hch
        exact ⟨wc', List.mem_cons_of_mem wc hwc', he⟩

/-- A word matcher over brace-free (lower-cased) words matches only
brace-free segments. -/
theorem wordsMatchAt_braceFree (ws : List (List Char))
    (hws : ∀ w ∈ ws, ∀ wc ∈ w, wc.toLower ≠ '{' ∧ wc.toLower ≠ '}') :
    ∀ (s : List Char) (p : Option Char) (L : Nat),
      wordsMatchAt ws s p = some L → braceFree (s.take L) := by
  intro s p L h
  unfold wordsMatchAt at h
  by_cases hb : isBoundary p s.head? = true
  · rw [if_pos hb] at h
    match hf : ws.find? fun w =>
        ciPrefix w s && isBoundary ((s.take w.length).getLast?) ((s.drop w.length).head?) with
    | some w =>
        rw [hf] at h
        simp only [Option.map_some'] at h
        have hw : w ∈ ws := List.mem_of_find?_eq_some hf
        have hp := List.find?_some hf
        rw [Bool.and_eq_true] at hp
        intro ch hch
        rw [← Option.some_inj.mp h] at hch
        obtain ⟨wc, hwc, he⟩ := ciPrefix_chars w s hp.1 ch hch
        have hnb := hws w hw wc hwc
        constructor
        · intro hch'
          rw [hch'] at he
          exact hnb.1 (by rw [← he]; decide)
        · intro hch'
          rw [hch'] at he
          exact hnb.2 (by rw [← he]; decide)
    | none => rw [hf] at h; exact absurd h (by simp)
  · rw [if_neg hb] at h
    exact absurd h (by simp)

/-- The unit matcher (digits, whitespace, unit word) matches only
brace-free segments. -/
theorem unitsMatchAt_braceFree :
    ∀ (s : List Char) (p : Option Char) (L : Nat),
      unitsMatchAt s p = some L → braceFree (s.take L) := by
  intro s p L h
  unfold unitsMatchAt at h
  by_cases hb : isBoundary p s.head? = true
  · rw [if_pos hb] at h
    dsimp only at h
    by_cases hds : s.takeWhile Char.isDigit = []
    · rw [if_pos hds] at h
      exact absurd h (by simp)
    · rw [if_neg hds] at h
      obtain ⟨u, hu, hL⟩ := Option.map_eq_some'.mp h
      have hu_mem : u ∈ unitWords := List.mem_of_find?_eq_some hu
      have hu_pred := List.find?_some hu
      rw [Bool.and_eq_true] at hu_pred
      have hdecomp : s.take L =
          s.takeWhile Char.isDigit ++
            ((s.drop (s.takeWhile Char.isDigit).length).takeWhile isSpaceChar ++
              ((s.drop (s.takeWhile Char.isDigit).length).drop
                ((s.drop (s.takeWhile Char.isDigit).length).takeWhile
                  isSpaceChar).length).take u.length) := by
        rw [← hL, Nat.add_assoc, List.take_add, List.take_add]
        congr 1
        · exact ((List.prefix_iff_eq_take.mp (List.takeWhile_prefix _))).symm
        · congr 1
          exact ((List.prefix_iff_eq_take.mp (List.takeWhile_prefix _))).symm
      rw [hdecomp]
      intro ch hch
      rcases List.mem_append.mp hch with hch | hch
      · have hd := List.mem_takeWhile_imp hch
        constructor <;> intro heq <;> rw [heq] at hd <;> exact absurd hd (by decide)
      rcases List.mem_append.mp hch with hch | hch
      · have hsp := List.mem_takeWhile_imp hch
        constructor <;> intro heq <;> rw [heq] at hsp <;> exact absurd hsp (by decide)
      · obtain ⟨uc, huc, he⟩ := ciPrefix_chars u _ hu_pred.1 ch hch
        have hnb : uc.toLower ≠ '{' ∧ uc.toLower ≠ '}' := by
          have hall : ∀ w ∈ unitWords, ∀ wc ∈ w, wc.toLower ≠ '{' ∧ wc.toLower ≠ '}' := by
            decide
          exact hall u hu_mem uc huc
        constructor
        · intro hch'
          rw [hch'] at he
          exact hnb.1 (by rw [← he]; decide)
        · intro hch'
          rw [hch'] at he
          exact hnb.2 (by rw [← he]; decide)
  · rw [if_neg hb] at h
    exact absurd h (by simp)

/-- The automaton state after `i + L` characters is reached from the state
after `i` characters by folding the next `L` characters. -/
theorem stateAt_add (orig : List Char) (i L : Nat) :
    stateAt orig (i + L) = ((orig.drop i).take L).foldl braceStep (stateAt orig i) := by
  unfold stateAt
  rw [List.take_add, List.foldl_append]

/-- The scan of one bold pass preserves the inside-cloze characters: a match
inside a cloze is kept verbatim, and a wrapped match starts and stays
outside (the wrapped segment and the tags carry no brace). -/
theorem insideAux_boldAux (m : Matcher) (orig : List Char)
    (hL : ∀ s' p L, m s' p = some L → 1 ≤ L)
    (hNB : ∀ s' p L, m s' p = some L → braceFree (s'.take L)) :
    ∀ (fuel : Nat) (s : List Char) (i : Nat), s.length ≤ fuel → s = orig.drop i →
      insideAux (stateAt orig i) (boldAux m orig fuel s i) =
        insideAux (stateAt orig i) s := by
  intro fuel
  induction fuel with
  | zero =>
      intro s i hs _
      match s, hs with
      | [], _ => rfl
  | succ fuel ih =>
      intro s i hs hdrop
      match s with
      | [] => rfl
      | c :: rest =>
          rw [List.length_cons, Nat.succ_le_succ_iff] at hs
          rw [show boldAux m orig (fuel + 1) (c :: rest) i =
              (match m (c :: rest) (if i = 0 then none else orig.get? (i - 1)) with
               | some L =>
                   (if countPairs '}' (orig.take i) < countPairs '{' (orig.take i) then
                     (c :: rest).take L
                    else '<' :: 'b' :: '>' :: ((c :: rest).take L ++ ['<', '/', 'b', '>'])) ++
                     boldAux m orig fuel (rest.drop (L - 1)) (i + L)
               | none => c :: boldAux m orig fuel rest (i + 1)) from rfl]
          match hm : m (c :: rest) (if i = 0 then none else orig.get? (i - 1)) with
          | none =>
              dsimp only
              have hdrop' : rest = orig.drop (i + 1) := by
                have h1 : orig.drop (i + 1) = (orig.drop i).drop 1 := by
                  rw [List.drop_drop, Nat.add_comm]
                rw [h1, ← hdrop]
                rfl
              have hstep : stateAt orig (i + 1) = braceStep (stateAt orig i) c := by
                rw [stateAt_add, ← hdrop]
                rfl
              show (if (stateAt orig i).2.1 < (stateAt orig i).1.1 then [c] else []) ++
                  insideAux (braceStep (stateAt orig i) c) (boldAux m orig fuel rest (i + 1)) =
                (if (stateAt orig i).2.1 < (stateAt orig i).1.1 then [c] else []) ++
                  insideAux (braceStep (stateAt orig i) c) rest
              congr 1
              rw [← hstep]
              exact ih rest (i + 1) hs hdrop'
          | some L =>
              dsimp only
              have hL1 : 1 ≤ L := hL _ _ _ hm
              have hbf : braceFree ((c :: rest).take L) := hNB _ _ _ hm
              have hsegne : (c :: rest).take L ≠ [] := by
                match L, hL1 with
                | L' + 1, _ => simp
              have hsegdrop : (c :: rest).take L ++ rest.drop (L - 1) = c :: rest := by
                have h1 : rest.drop (L - 1) = (c :: rest).drop L := by
                  match L, hL1 with
                  | L' + 1, _ => simp
                rw [h1, List.take_append_drop]
              have hdropL : rest.drop (L - 1) = orig.drop (i + L) := by
                have h1 : orig.drop (i + L) = (orig.drop i).drop L := by
                  rw [List.drop_drop, Nat.add_comm]
                have h2 : rest.drop (L - 1) = (c :: rest).drop L := by
                  match L, hL1 with
                  | L' + 1, _ => simp
                rw [h1, ← hdrop, h2]
              have hlen2 : (rest.drop (L - 1)).length ≤ fuel := by
                rw [List.length_drop]
                omega
              have hstL : stateAt orig (i + L) =
                  ((c :: rest).take L).foldl braceStep (stateAt orig i) := by
                rw [stateAt_add, ← hdrop]
              by_cases hg : countPairs '}' (orig.take i) < countPairs '{' (orig.take i)
              · rw [if_pos hg, insideAux_append]
                conv_rhs => rw [← hsegdrop]
                rw [insideAux_append]
                congr 1
                rw [← hstL]
                exact ih _ (i + L) hlen2 hdropL
              · rw [if_neg hg]
                have hout : ¬ (stateAt orig i).2.1 < (stateAt orig i).1.1 :=
                  fun hx => hg ((guard_iff_stateAt orig i).mpr hx)
                have hblockbf : braceFree
                    ('<' :: 'b' :: '>' :: ((c :: rest).take L ++ ['<', '/', 'b', '>'])) := by
                  intro ch hch
                  simp only [List.mem_cons, List.mem_append] at hch
                  rcases hch with rfl | rfl | rfl | hch | hch
                  · exact ⟨by decide, by decide⟩
                  · exact ⟨by decide, by decide⟩
                  · exact ⟨by decide, by decide⟩
                  · exact hbf ch hch
                  · simp only [List.mem_cons, List.not_mem_nil, or_false] at hch
                    rcases hch with rfl | rfl | rfl | rfl
                    · exact ⟨by decide, by decide⟩
                    · exact ⟨by decide, by decide⟩
                    · exact ⟨by decide, by decide⟩
                    · exact ⟨by decide, by decide⟩
                rw [insideAux_append]
                have hz1 : insideAux (stateAt orig i)
                    ('<' :: 'b' :: '>' :: ((c :: rest).take L ++ ['<', '/', 'b', '>'])) = [] :=
                  insideAux_braceFree _ _ hblockbf hout
                have hfold : ('<' :: 'b' :: '>' ::
                      ((c :: rest).take L ++ ['<', '/', 'b', '>'])).foldl braceStep
                      (stateAt orig i) =
                    (((stateAt orig i).1.1, false), ((stateAt orig i).2.1, false)) :=
                  foldl_braceFree _ _ hblockbf (by simp)
                rw [hz1, List.nil_append, hfold]
                conv_rhs => rw [← hsegdrop]
                rw [insideAux_append]
                have hz2 : insideAux (stateAt orig i) ((c :: rest).take L) = [] :=
                  insideAux_braceFree _ _ hbf hout
                have hfold2 : ((c :: rest).take L).foldl braceStep (stateAt orig i) =
                    (((stateAt orig i).1.1, false), ((stateAt orig i).2.1, false)) :=
                  foldl_braceFree _ _ hbf hsegne
                rw [hz2, List.nil_append, hfold2]
                have hstflat : stateAt orig (i + L) =
                    (((stateAt orig i).1.1, false), ((stateAt orig i).2.1, false)) := by
                  rw [hstL, hfold2]
                rw [← hstflat]
                exact ih _ (i + L) hlen2 hdropL

/-- One full bold pass preserves the inside-cloze characters. -/
theorem insideChars_boldPass (m : Matcher)
    (hL : ∀ s' p L, m s' p = some L → 1 ≤ L)
    (hNB : ∀ s' p L, m s' p = some L → braceFree (s'.take L))
    (s : List Char) :
    insideChars (boldPass m s) = insideChars s := by
  unfold insideChars boldPass
  have h := insideAux_boldAux m s hL hNB s.length s 0 (le_refl _) (by simp)
  rw [show stateAt s 0 = ((0, false), (0, false)) from rfl] at h
  exact h

/-- C9: `add_bold_formatting` never modifies text inside a cloze marker:
the sequence of characters at inside-cloze positions (where the count of
preceding `\x7b\x7b` pairs exceeds the count of preceding `\x7d\x7d`
pairs, the guard the code itself uses) of the output equals that of the
input — bold tags and wrapped words only ever land outside. -/
theorem C9_bold_preserves_cloze_interior (s : List Char) :
    insideChars (add_bold_formatting s) = insideChars s := by
  unfold add_bold_formatting
  have h1 : ∀ w ∈ keyWords1, ∀ wc ∈ w, wc.toLower ≠ '{' ∧ wc.toLower ≠ '}' := by decide
  have h2 : ∀ w ∈ keyWords2, ∀ wc ∈ w, wc.toLower ≠ '{' ∧ wc.toLower ≠ '}' := by decide
  have hn1 : ∀ w ∈ keyWords1, w ≠ [] := by decide
  have hn2 : ∀ w ∈ keyWords2, w ≠ [] := by decide
  rw [insideChars_boldPass unitsMatchAt unitsMatchAt_pos unitsMatchAt_braceFree,
    insideChars_boldPass (wordsMatchAt keyWords2) (wordsMatchAt_pos keyWords2 hn2)
      (wordsMatchAt_braceFree keyWords2 h2),
    insideChars_boldPass (wordsMatchAt keyWords1) (wordsMatchAt_pos keyWords1 hn1)
      (wordsMatchAt_braceFree keyWords1 h1)]
